import Mathlib

/-!
# A verification development for the `chinese-book-maker` repository

This file gives a shallow embedding, in Lean 4, of the parts of the
repository that the specification talks about:

* `src/utils/process_svg.py` — SVG stroke decomposition (grouping the
  `<path>` elements of a character SVG into discrete strokes, adding a
  gray background copy of every path, and marking the stroke paths black);
* `src/utils/generate_stroke_step_pngs.py` — the per-step SVG/PNG
  generation loop with its on-disk caching;
* `src/utils/filters.py` — the filter / sort pipeline over word records;
* `src/utils/extract_tocfl_words.py` — extraction of word records from the
  TOCFL vocabulary sheets;
* `src/utils/search_words.py` (`load_words`) and
  `src/utils/get_translation.py` (`lookup`) — error handling of the
  loading steps.

Python strings are modelled by Lean `String`, manipulated through their
underlying `List Char` so that every operation is structurally recursive
and evaluates inside the kernel.  Python floats are modelled by exact
decimal numbers (an integer mantissa with a power-of-ten scale); the
numeric tokens appearing in SVG path data are plain decimal literals, for
which this model is exact.  Python exceptions are modelled with `Except`.
-/

/-! ## Python string primitives -/
/-- The whitespace characters recognised by Python's `str.split()` /
`str.strip()` that occur in this code base (space, tab, newline,
carriage return). -/
def pyWs (c : Char) : Bool :=
  c = ' ' || c = '\t' || c = '\n' || c = '\r'

/-- Model of `str.strip()`: drop leading and trailing whitespace. -/
def pyStrip (s : String) : String :=
  ⟨((s.data.dropWhile pyWs).reverse.dropWhile pyWs).reverse⟩

/-- Helper for `pySplit`: split a character list on runs of whitespace,
dropping empty pieces (the behaviour of Python's `str.split()` with no
argument). -/
def splitWsAux : List Char → List Char → List (List Char)
  | [], acc => if acc = [] then [] else [acc.reverse]
  | c :: cs, acc =>
    if pyWs c then
      if acc = [] then splitWsAux cs []
      else acc.reverse :: splitWsAux cs []
    else splitWsAux cs (c :: acc)

/-- Model of `str.split()` with no argument: split on whitespace runs, no empty
pieces. -/
def pySplit (s : String) : List String :=
  (splitWsAux s.data []).map String.mk

/-- Helper for `pySplitOn`. -/
def splitOnAux (sep : Char) : List Char → List Char → List (List Char)
  | [], acc => [acc.reverse]
  | c :: cs, acc =>
    if c = sep then acc.reverse :: splitOnAux sep cs []
    else splitOnAux sep cs (c :: acc)

/-- Model of `str.split(sep)` with a one-character separator: split on every
occurrence of `sep`, keeping empty pieces. -/
def pySplitOn (s : String) (sep : Char) : List String :=
  (splitOnAux sep s.data []).map String.mk

/-- Model of `str.startswith(pre)`. -/
def pyStartsWith (s pre : String) : Bool :=
  List.isPrefixOf pre.data s.data

/-- ASCII upper-casing of one character (Python `str.upper()` on the
ASCII grammar tags used in this repository). -/
def pyCharUpper (c : Char) : Char :=
  if 'a' ≤ c && c ≤ 'z' then Char.ofNat (c.toNat - 32) else c

/-- Model of `str.upper()`. -/
def pyUpper (s : String) : String :=
  ⟨s.data.map pyCharUpper⟩

/-- ASCII decimal digit test. -/
def isDig (c : Char) : Bool :=
  '0' ≤ c && c ≤ '9'

/-- Value of an ASCII decimal digit. -/
def digVal (c : Char) : ℕ := c.toNat - 48

/-- Value of a digit string read left to right. -/
def digitsVal (cs : List Char) : ℕ :=
  cs.foldl (fun a c => a * 10 + digVal c) 0

/-- Decimal digits of `n`, most significant first; `fuel` bounds the
recursion and any `fuel > n` is enough. -/
def natDigitsAux : ℕ → ℕ → List Char
  | 0, _ => []
  | fuel + 1, n =>
    if n < 10 then [Char.ofNat (48 + n)]
    else natDigitsAux fuel (n / 10) ++ [Char.ofNat (48 + n % 10)]

/-- Python `str(n)` for a natural number: plain decimal digits. -/
def pyStr (n : ℕ) : String :=
  ⟨natDigitsAux (n + 1) n⟩

/-- Python `int(s)` restricted to plain nonnegative digit strings — the
only shape this code base ever feeds to `int` (stroke-class suffixes).
An empty or non-digit string raises `ValueError`, modelled as `none`. -/
def pyNat? (s : String) : Option ℕ :=
  if s.data = [] then none
  else if s.data.all isDig then some (digitsVal s.data) else none

/-- Python's `f"{i:02d}"`: decimal digits left-padded with `0` to width
two. -/
def pad2 (n : ℕ) : String :=
  if n < 10 then ⟨'0' :: (pyStr n).data⟩ else pyStr n

/-! ## Exact decimal numbers (model of the Python floats appearing here) -/
/-- An exact decimal number with value `m / 10 ^ s`.  The numeric tokens
this code base feeds to Python's `float` are decimal literals from SVG
path data, which this type represents exactly. -/
structure Dec where
  m : ℤ
  s : ℕ
deriving DecidableEq

/-- The rational value of a decimal number. -/
def Dec.toRat (d : Dec) : ℚ := (d.m : ℚ) / 10 ^ d.s

/-- Model of `|a - b| > 50`, computed exactly by cross-multiplication. -/
def Dec.farFrom (a b : Dec) : Bool :=
  50 * 10 ^ (a.s + b.s) < (a.m * 10 ^ b.s - b.m * 10 ^ a.s).natAbs

/-- Sign handling of `float`: an optional leading `-` or `+`. -/
def pySign : List Char → ℤ × List Char
  | '-' :: cs => (-1, cs)
  | '+' :: cs => (1, cs)
  | cs => (1, cs)

/-- Python `float(s)` on the token shapes that occur in SVG path data:
an optional sign, then decimal digits with at most one decimal point and
at least one digit (`12`, `-3.5`, `.5`, `7.`).  Exponents, `inf`/`nan`,
underscores and surrounding whitespace — which never occur in this data —
are not modelled and yield `none` (`ValueError`). -/
def pyFloat? (s : String) : Option Dec :=
  let sc := pySign s.data
  let ip := sc.2.takeWhile isDig
  let rest := sc.2.dropWhile isDig
  match rest with
  | [] => if ip = [] then none else some ⟨sc.1 * digitsVal ip, 0⟩
  | '.' :: fp =>
    if fp.all isDig then
      if ip = [] ∧ fp = [] then none
      else some ⟨sc.1 * (digitsVal ip * 10 ^ fp.length + digitsVal fp), fp.length⟩
    else none
  | _ => none

/-! ## The SVG model -/
/-- A `<path>` element: its attribute map, in insertion order (the
behaviour of BeautifulSoup tag attributes, which are Python dicts). -/
structure PyPath where
  attrs : List (String × String)
deriving DecidableEq

/-- Model of `tag.get(k, dflt)`. -/
def PyPath.get (p : PyPath) (k dflt : String) : String :=
  match p.attrs.find? (fun kv => kv.1 = k) with
  | some kv => kv.2
  | none => dflt

/-- Model of `tag[k] = v` on a Python dict (whose keys are unique): overwrite the
key in place, or append a new key at the end. -/
def setAttr : List (String × String) → String → String → List (String × String)
  | [], k, v => [(k, v)]
  | kv :: t, k, v => if kv.1 = k then (k, v) :: t else kv :: setAttr t k v

/-- Attribute assignment on a path. -/
def PyPath.set (p : PyPath) (k v : String) : PyPath := ⟨setAttr p.attrs k v⟩

/-- Python exceptions raised (or caught) by this code base. -/
inductive PyErr
  | indexError | valueError | typeError | keyError
  | fileNotFound | jsonDecode | other
deriving DecidableEq

deriving instance DecidableEq for Except

/-- Model of `get_path_coords` from `process_svg.py` (lines 37–41): split the
path data on whitespace; if the first token is `M`, return the two
following tokens as floats, else `None`.  `parts[0]` of an empty split
raises `IndexError`; a missing `parts[1]`/`parts[2]` raises
`IndexError`; a non-numeric one raises `ValueError`. -/
def get_path_coords (d : String) : Except PyErr (Option (Dec × Dec)) :=
  match pySplit (pyStrip d) with
  | [] => .error .indexError
  | p0 :: rest =>
    if p0 = "M" then
      match rest with
      | [] => .error .indexError
      | a :: rest2 =>
        match pyFloat? a with
        | none => .error .valueError
        | some x =>
          match rest2 with
          | [] => .error .indexError
          | b :: _ =>
            match pyFloat? b with
            | none => .error .valueError
            | some y => .ok (some (x, y))
    else .ok none

/-- The gray background copy of a path (`process_svg.py` lines 25–32):
copy every attribute, then set `fill` and `style` to gray. -/
def grayCopy (p : PyPath) : PyPath :=
  (p.set "fill" "#CCCCCC").set "style" "fill:#CCCCCC"

/-- The new-stroke condition of the grouping loop (`process_svg.py`
lines 52–55): first path, or a path whose `M x y` start point is far
(more than 50 in x or in y) from the last recorded start point, or no
point recorded yet. -/
def newStrokeCond (i : ℕ) (coords last : Option (Dec × Dec)) : Bool :=
  i == 0 ||
    (match coords with
     | none => false
     | some c =>
       match last with
       | none => true
       | some l => c.1.farFrom l.1 || c.2.farFrom l.2)

/-- The black-marking / grouping loop of `process_svg` (lines 44–66):
each path is assigned `fill` black and class `stroke-k`, where `k`
counts the strokes started so far per `newStrokeCond`; the start point
of every path that has one is recorded.  The `print` of the new-stroke
message subscripts `coords`, so a first path without `M x y`
coordinates raises `TypeError`. -/
def markPaths : ℕ → ℕ → Option (Dec × Dec) → List PyPath →
    Except PyErr (List PyPath)
  | _, _, _, [] => .ok []
  | i, cur, last, p :: ps =>
    match get_path_coords (p.get "d" "") with
    | .error e => .error e
    | .ok coords =>
      let isNew := newStrokeCond i coords last
      if isNew = true ∧ coords = none then .error .typeError
      else
        let cur' := if isNew then cur + 1 else cur
        let last' := match coords with
          | some c => some c
          | none => last
        let p' := ((p.set "fill" "#000000").set "style" "fill:#000000").set
          "class" ("stroke-" ++ pyStr cur')
        match markPaths (i + 1) cur' last' ps with
        | .error e => .error e
        | .ok rest => .ok (p' :: rest)

/-- Model of `process_svg`, in the branch where the stroke group was found:
returns the gray background copies (inserted before the stroke group)
and the black stroke paths.  Removing `<text>` elements and locating
the `scale(1, -1)` group are structural SVG navigation and are not part
of the model. -/
def process_svg (originals : List PyPath) :
    Except PyErr (List PyPath × List PyPath) :=
  match markPaths 0 0 none originals with
  | .error e => .error e
  | .ok black => .ok (originals.map grayCopy, black)

/-! ## The step-image generation model -/
/-- Stroke-number detection from a `class` attribute
(`generate_stroke_step_pngs.py` lines 40–48): the class must be a
non-empty string starting with `stroke-`; then `int` of the piece after
the first dash, with `IndexError`/`ValueError` caught and the class
skipped (`none`). -/
def parseStrokeClass (c : String) : Option ℕ :=
  if c ≠ "" ∧ pyStartsWith c "stroke-" then
    match (pySplitOn c '-')[1]? with
    | none => none
    | some piece => pyNat? piece
  else none

/-- The detected stroke numbers of a document, in path order with
repetitions (the code collects them into a set; only emptiness and the
maximum are used). -/
def strokeNumbers (paths : List PyPath) : List ℕ :=
  paths.filterMap (fun p => parseStrokeClass (p.get "class" ""))

/-- One removal pass of the step loop: decompose every path whose class
is exactly `stroke-j`. -/
def removeStroke (paths : List PyPath) (j : ℕ) : List PyPath :=
  paths.filter (fun p => ¬(p.get "class" "" = "stroke-" ++ pyStr j))

/-- The step-`i` document (`generate_stroke_step_pngs.py` lines 60–64):
from a fresh copy of the processed soup, remove the paths of every
stroke `j` with `i < j ≤ maxStroke`. -/
def stepPaths (paths : List PyPath) (i maxStroke : ℕ) : List PyPath :=
  (List.range' (i + 1) (maxStroke - i)).foldl removeStroke paths

/-- Model of `output/pngs/` + `f"{output_prefix}_step_{i:02d}"`. -/
def stepFileBase (pref : String) (i : ℕ) : String :=
  "output/pngs/" ++ pref ++ "_step_" ++ pad2 i

/-- The step-`i` PNG file name. -/
def pngFile (pref : String) (i : ℕ) : String := stepFileBase pref i ++ ".png"

/-- The step-`i` SVG file name. -/
def svgFile (pref : String) (i : ℕ) : String := stepFileBase pref i ++ ".svg"

/-- The on-disk effects of one run of the generation loop: writing a
step SVG, and invoking inkscape to export a step PNG from it. -/
inductive FOp
  | writeSvg (name : String) (content : List PyPath)
  | exportPng (svgIn pngOut : String)
deriving DecidableEq

/-- A file system: maps a path to the size of the file there, if any. -/
def FS := String → Option ℕ

/-- Model of `os.path.exists(p) and os.path.getsize(p) > 0`. -/
def existsNonzero (fs : FS) (p : String) : Bool :=
  match fs p with
  | some sz => 0 < sz
  | none => false

/-- The generation loop (`generate_stroke_step_pngs.py` lines 52–75):
for each step `1 ≤ i ≤ maxStroke`, skip it when its PNG is already
cached with positive size, else write the step SVG and export the step
PNG. -/
def genOps (fs : FS) (pref : String) (paths : List PyPath)
    (maxStroke : ℕ) : List FOp :=
  (List.range' 1 maxStroke).flatMap (fun i =>
    if existsNonzero fs (pngFile pref i) then []
    else [.writeSvg (svgFile pref i) (stepPaths paths i maxStroke),
          .exportPng (svgFile pref i) (pngFile pref i)])

/-- Model of `generate_stroke_step_pngs`, applied to the processed soup (whose
paths are the gray group followed by the stroke group): detect the
stroke numbers from the path classes; if none were found, return with
no writes; else run the step loop up to the highest detected stroke. -/
def generate_stroke_step_pngs (fs : FS) (pref : String)
    (gray black : List PyPath) : List FOp :=
  let all_paths := gray ++ black
  let nums := strokeNumbers all_paths
  if nums = [] then []
  else genOps fs pref all_paths (nums.foldr max 0)

/-! ## Word records and the filter / sort pipeline -/
/-- The four TOCFL levels. -/
inductive Level
  | foundation | beginner | intermediate | advanced
deriving DecidableEq

/-- The level ranking `foundation < beginner < intermediate < advanced`
(`level_ranking` in `extract_tocfl_words.py`, `level_order` in
`filters.py`). -/
def Level.rank : Level → ℕ
  | .foundation => 0
  | .beginner => 1
  | .intermediate => 2
  | .advanced => 3

/-- A JSON value that can sit in the `frequency_score` field: `null`, a
number (kept exact), or a string. -/
inductive FVal
  | null
  | num (v : Dec)
  | str (s : String)
deriving DecidableEq

/-- A word record as stored in the JSON word list.  `Option` on a field
models absence of the key from the dict; `FVal.null` models JSON
`null`. -/
structure Word where
  chineseword : String
  pinyin : String
  grammar : Option String
  levels : List String
  translations : List String
  frequency_score : Option FVal
deriving DecidableEq

/-- Model of `filter_by_custom` (`filters.py` lines 50–61): keep the records the
predicate accepts. -/
def filter_by_custom {α : Type} (words : List α) (pred : α → Bool) : List α :=
  words.filter pred

/-- Model of `apply_filters` (`filters.py` lines 63–77): apply each filter in
turn to the running result. -/
def apply_filters {α : Type} (words : List α)
    (fs : List (List α → List α)) : List α :=
  fs.foldl (fun result f => f result) words

/-- Model of `word.get('grammar', '')`. -/
def Word.grammarOr (w : Word) : String := w.grammar.getD ""

/-- Model of `filter_by_grammar` (`filters.py` lines 17–35): upper-case the
query, keep a record when its (upper-cased) grammar field equals the
query, equals the query in parentheses, or starts with either followed
by a slash. -/
def filter_by_grammar (words : List Word) (grammar : String) : List Word :=
  let g := pyUpper grammar
  words.filter (fun w =>
    (pyUpper w.grammarOr == g) ||
    (pyUpper w.grammarOr == "(" ++ g ++ ")") ||
    pyStartsWith (pyUpper w.grammarOr) (g ++ "/") ||
    pyStartsWith (pyUpper w.grammarOr) ("(" ++ g ++ ")/"))

/-! ### Python's stable sort -/
/-- Insert `x` into `l` just before the first element that strictly
follows it; with a total preorder `le` this realises one step of the
stable sorting done by Python's `sorted`. -/
def stableInsert {α : Type} (le : α → α → Bool) (x : α) : List α → List α
  | [] => [x]
  | y :: ys =>
    if le x y && !le y x then x :: y :: ys else y :: stableInsert le x ys

/-- Python's `sorted` with a total preorder `le` derived from a key
function: insert the elements left to right. -/
def pySorted {α : Type} (le : α → α → Bool) (l : List α) : List α :=
  l.foldl (fun acc x => stableInsert le x acc) []

/-! ### The sort functions -/
/-- Lexicographic code-point order on character lists (how Python
compares strings). -/
def charsLe : List Char → List Char → Bool
  | [], _ => true
  | _ :: _, [] => false
  | a :: as, b :: bs =>
    if a.toNat < b.toNat then true
    else if a.toNat = b.toNat then charsLe as bs
    else false

/-- Model of `s1 <= s2` on Python strings. -/
def pyStrLe (a b : String) : Bool := charsLe a.data b.data

/-- Model of `sort_by_pinyin` (`filters.py` lines 152–163): stable sort keyed by
the `pinyin` field, comparisons reversed when `reverse` is set. -/
def sort_by_pinyin (words : List Word) (reverse : Bool) : List Word :=
  pySorted (fun a b =>
    if reverse then pyStrLe b.pinyin a.pinyin else pyStrLe a.pinyin b.pinyin)
    words

/-- Value order on exact decimals, by cross-multiplication. -/
def Dec.le (a b : Dec) : Bool :=
  a.m * 10 ^ b.s ≤ b.m * 10 ^ a.s

/-- Model of `'frequency_score' in word and word['frequency_score'] is not None`. -/
def Word.hasFreq (w : Word) : Bool :=
  match w.frequency_score with
  | some v => v ≠ FVal.null
  | none => false

/-- Model of `get_frequency` inside `sort_by_frequency` (`filters.py` lines
185–196): a missing or `None` score counts as `0.0`; a string score is
parsed as a float, `ValueError` giving `0.0`; a number is used as it
is. -/
def get_frequency (w : Word) : Dec :=
  match w.frequency_score with
  | none => ⟨0, 0⟩
  | some .null => ⟨0, 0⟩
  | some (.num v) => v
  | some (.str s) =>
    match pyFloat? s with
    | some v => v
    | none => ⟨0, 0⟩

/-- Model of `sort_by_frequency` (`filters.py` lines 175–208): if no record has
a non-`None` `frequency_score`, fall back to pinyin sorting; else
stable-sort by `get_frequency`. -/
def sort_by_frequency (words : List Word) (reverse : Bool) : List Word :=
  let words_with_frequency := words.filter Word.hasFreq
  if words_with_frequency = [] then sort_by_pinyin words reverse
  else
    pySorted (fun a b =>
      if reverse then (get_frequency b).le (get_frequency a)
      else (get_frequency a).le (get_frequency b)) words

/-! ## TOCFL word extraction -/
/-- A data row of a vocabulary sheet: its `詞彙` (word), `拼音`
(pinyin) and `詞類` (grammar) cells, with `none` for an empty (`NaN`)
cell. -/
structure XRow where
  vocab : Option String
  pinyinCell : Option String
  grammarCell : Option String

/-- A sheet of the Excel file: its name and all of its data rows (the
code skips the first two with `df.iloc[2:]`). -/
structure Sheet where
  name : String
  rows : List XRow

/-- Model of `level_mapping` (`extract_tocfl_words.py` lines 26–31); looking up
an unknown sheet name raises `KeyError`. -/
def level_mapping (name : String) : Option Level :=
  if name = "基礎" then some .foundation
  else if name = "進階(初等)" then some .beginner
  else if name = "高階(中等)" then some .intermediate
  else if name = "流利(高等)" then some .advanced
  else none

/-- A record produced by `extract_chinese_words` (its documented
shape). -/
structure TocflWord where
  chineseword : String
  pinyin : String
  grammar : String
  levels : List Level
  lowest_level : Level
deriving DecidableEq

/-- Model of `any(u4e00 <= ch <= u9fff for ch in word)`: the word contains at
least one CJK unified ideograph. -/
def hasChineseChar (s : String) : Bool :=
  s.data.any (fun c => 0x4e00 ≤ c.toNat && c.toNat ≤ 0x9fff)

/-- The level / pinyin / grammar update applied to an existing
`word_dict` entry (`extract_tocfl_words.py` lines 66–74): append the
current level when not yet present; when the current level ranks lower
than the recorded lowest, replace `lowest_level` and refresh pinyin and
grammar from this row. -/
def updateEntry (lvl : Level) (row : XRow) (e : TocflWord) : TocflWord :=
  let e1 := if lvl ∈ e.levels then e else { e with levels := e.levels ++ [lvl] }
  if lvl.rank < e1.lowest_level.rank then
    { e1 with
      lowest_level := lvl
      pinyin := pyStrip (row.pinyinCell.getD "")
      grammar := pyStrip (row.grammarCell.getD "") }
  else e1

/-- Processing of one data row (`extract_tocfl_words.py` lines 47–74):
skip an empty `詞彙` cell; strip the word and skip it unless it
contains a Chinese character; create a fresh entry on first sight
(levels `[lvl]`, lowest level `lvl`), else apply `updateEntry`.
`word_dict` is an insertion-ordered association list, as a Python dict
is. -/
def processRow (lvl : Level) (dict : List (String × TocflWord)) (row : XRow) :
    List (String × TocflWord) :=
  match row.vocab with
  | none => dict
  | some v =>
    let w := pyStrip v
    if hasChineseChar w then
      match dict.find? (fun kv => kv.1 = w) with
      | none =>
        dict ++ [(w, { chineseword := w
                       pinyin := pyStrip (row.pinyinCell.getD "")
                       grammar := pyStrip (row.grammarCell.getD "")
                       levels := [lvl]
                       lowest_level := lvl })]
      | some _ =>
        dict.map (fun kv => if kv.1 = w then (kv.1, updateEntry lvl row kv.2) else kv)
    else dict

/-- Processing of one sheet (`extract_tocfl_words.py` lines 40–74):
resolve its level (`KeyError` for an unknown name) and fold its data
rows, the first two skipped, into `word_dict`. -/
def processSheet (dict : List (String × TocflWord)) (sh : Sheet) :
    Except PyErr (List (String × TocflWord)) :=
  match level_mapping sh.name with
  | none => .error .keyError
  | some lvl => .ok ((sh.rows.drop 2).foldl (processRow lvl) dict)

/-- The sheet loop. -/
def processSheets (dict : List (String × TocflWord)) :
    List Sheet → Except PyErr (List (String × TocflWord))
  | [] => .ok dict
  | sh :: rest =>
    match processSheet dict sh with
    | .error e => .error e
    | .ok d => processSheets d rest

/-- Model of `extract_chinese_words` (`extract_tocfl_words.py` lines 37–95):
process the sheets in reversed order building `word_dict`, and return
its values in insertion order; the enclosing `try` turns any exception
into `[]`. -/
def extract_chinese_words (sheets : List Sheet) : List TocflWord :=
  match processSheets [] sheets.reverse with
  | .error _ => []
  | .ok dict => dict.map (fun kv => kv.2)

/-! ## Loading and lookup error handling -/
/-- What sits at the path `load_words` opens: nothing, a file that is
not valid JSON, or a valid JSON word list. -/
inductive JsonFile
  | missing
  | invalid
  | valid (words : List Word)

/-- The body of the `try` in `load_words` (`search_words.py` lines
35–37): `open` raises `FileNotFoundError` for a missing file,
`json.load` raises `JSONDecodeError` for invalid JSON. -/
def load_words_body (f : JsonFile) : Except PyErr (List Word) :=
  match f with
  | .missing => .error .fileNotFound
  | .invalid => .error .jsonDecode
  | .valid ws => .ok ws

/-- Model of `load_words` (`search_words.py` lines 33–43): each of the two
`except` arms prints an error and returns `[]`; nothing else is
caught. -/
def load_words (f : JsonFile) : Except PyErr (List Word) :=
  match load_words_body f with
  | .ok ws => .ok ws
  | .error .fileNotFound => .ok []
  | .error .jsonDecode => .ok []
  | .error e => .error e

/-- A CC-CEDICT entry (the fields `lookup` reads). -/
structure CedictEntry where
  traditional : String
  simplified : String
  definitions : List String

/-- The body of the `try` in `lookup` (`get_translation.py` lines
15–29): obtain the dictionary entries (any exception can occur while
reading the dictionary, modelled by the `Except` argument), keep the
entries whose traditional or simplified form equals the word, and
concatenate their definitions. -/
def lookup_body (entries : Except PyErr (List CedictEntry)) (word : String) :
    Except PyErr (List String) :=
  match entries with
  | .error e => .error e
  | .ok es =>
    .ok (((es.filter (fun e => (e.traditional == word) || (e.simplified == word))).map
      (fun e => e.definitions)).flatten)

/-- Model of `lookup` (`get_translation.py` lines 6–35): `except Exception`
catches every error, prints it and returns `[]`, so the function always
returns normally. -/
def lookup (entries : Except PyErr (List CedictEntry)) (word : String) :
    List String :=
  match lookup_body entries word with
  | .ok defs => defs
  | .error _ => []

/-- The transformation applied to the `j`-th original path by the
black-marking loop, once its stroke number `k` is fixed. -/
def markOne (p : PyPath) (k : ℕ) : PyPath :=
  ((p.set "fill" "#000000").set "style" "fill:#000000").set
    "class" ("stroke-" ++ pyStr k)

/-! ## The grouping loop: its output shape and stroke numbering -/
/-- Consecutive stroke numbering: each path keeps the current stroke or
starts the next one. -/
def strokeStep (a b : ℕ) : Prop := b = a ∨ b = a + 1

/-- The paths kept at step `N`: any path carrying a stroke class keeps
its place exactly when its stroke number is at most `N`; paths without
a stroke class are never removed. -/
def keptAtStep (N : ℕ) (p : PyPath) : Bool :=
  match parseStrokeClass (p.get "class" "") with
  | some k => decide (k ≤ N)
  | none => true

/-! ## C9: the grammar filter -/
/-- The matching condition of the claim, stated over the upper-cased
grammar field (a missing field reads as the empty string): equal to the
query, equal to the parenthesised query, or starting with either
followed by a slash. -/
def grammarMatchesSpec (g : String) (w : Word) : Prop :=
  pyUpper (w.grammar.getD "") = pyUpper g ∨
  pyUpper (w.grammar.getD "") = "(" ++ pyUpper g ++ ")" ∨
  pyStartsWith (pyUpper (w.grammar.getD "")) (pyUpper g ++ "/") = true ∨
  pyStartsWith (pyUpper (w.grammar.getD "")) ("(" ++ pyUpper g ++ ")/") = true

instance (g : String) (w : Word) : Decidable (grammarMatchesSpec g w) :=
  inferInstanceAs (Decidable
    (pyUpper (w.grammar.getD "") = pyUpper g ∨
     pyUpper (w.grammar.getD "") = "(" ++ pyUpper g ++ ")" ∨
     pyStartsWith (pyUpper (w.grammar.getD "")) (pyUpper g ++ "/") = true ∨
     pyStartsWith (pyUpper (w.grammar.getD "")) ("(" ++ pyUpper g ++ ")/") = true))

/-! ## C2: the grouping rule, as the claim words it -/
/-- The new-stroke test of the claim: the first path, or a path with an
`M x y` start point that differs from the previously recorded start
point by more than 50 in x or in y, or a path with a start point when
no point was recorded yet. -/
def claimNewStroke (first : Bool) (c last : Option (Dec × Dec)) : Bool :=
  first ||
    (match c, last with
     | none, _ => false
     | some _, none => true
     | some p, some l =>
       decide (|p.1.toRat - l.1.toRat| > 50) || decide (|p.2.toRat - l.2.toRat| > 50))

/-- The stroke numbering of the claim: the first path starts stroke 1;
a later path starts a new stroke exactly per `claimNewStroke`; every
path is assigned the current stroke number, and the start point of
every path that has one is recorded. -/
def claimStrokes : Bool → ℕ → Option (Dec × Dec) → List (Option (Dec × Dec)) → List ℕ
  | _, _, _, [] => []
  | first, cur, last, c :: cs =>
    let cur' := if claimNewStroke first c last then cur + 1 else cur
    cur' :: claimStrokes false cur' (match c with | some p => some p | none => last) cs

/-! ## C8: when the stroke decomposition raises -/
/-- Well-formedness of one path's data, needed for every path: the
whitespace-split token list is non-empty, and when its first token is
`M`, at least two more tokens follow and both parse as floats. -/
def dTokensOk (d : String) : Bool :=
  match pySplit (pyStrip d) with
  | [] => false
  | t :: rest =>
    if t = "M" then
      match rest with
      | a :: b :: _ => (pyFloat? a).isSome && (pyFloat? b).isSome
      | _ => false
    else true

/-- The claim's premise on the first path: its data starts with an
`M x y` command with numeric `x` and `y`. -/
def dStartsM (d : String) : Bool :=
  match pySplit (pyStrip d) with
  | [] => false
  | t :: rest =>
    decide (t = "M") &&
      (match rest with
       | a :: b :: _ => (pyFloat? a).isSome && (pyFloat? b).isSome
       | _ => false)

/-! ## C4: the extraction invariant -/
/-- The record invariant of the claim: the levels list is non-empty and
duplicate-free, and `lowest_level` is a member of minimal rank. -/
def goodRecord (r : TocflWord) : Prop :=
  r.levels ≠ [] ∧ r.levels.Nodup ∧ r.lowest_level ∈ r.levels ∧
    ∀ l ∈ r.levels, r.lowest_level.rank ≤ l.rank

/-- The record the concrete C4 witness sheet produces. -/
def c4Sample : TocflWord :=
  { chineseword := "你", pinyin := "ni", grammar := "N",
    levels := [.foundation], lowest_level := .foundation }

/-! ## Theorems -/

/-! ### Round-trip facts about `pyStr` / `pyNat?` -/
theorem digitsVal_append (xs : List Char) (c : Char) :
    digitsVal (xs ++ [c]) = digitsVal xs * 10 + digVal c := by
  simp [digitsVal, List.foldl_append]

theorem toNat_ofNat_digit (d : ℕ) (hd : d < 10) :
    (Char.ofNat (48 + d)).toNat = 48 + d := by
  interval_cases d <;> decide

theorem isDig_ofNat_digit (d : ℕ) (hd : d < 10) :
    isDig (Char.ofNat (48 + d)) = true := by
  interval_cases d <;> decide

theorem natDigitsAux_spec (fuel n : ℕ) (h : n < fuel) :
    natDigitsAux fuel n ≠ [] ∧
    (natDigitsAux fuel n).all isDig = true ∧
    digitsVal (natDigitsAux fuel n) = n := by
  induction fuel generalizing n with
  | zero => omega
  | succ fuel ih =>
    by_cases h10 : n < 10
    · refine ⟨by simp [natDigitsAux, h10], ?_, ?_⟩
      · simp [natDigitsAux, h10, isDig_ofNat_digit n h10]
      · simp [natDigitsAux, h10, digitsVal, digVal, toNat_ofNat_digit n h10]
    · have hn0 : 0 < n := by omega
      have hlt : n / 10 < fuel := by
        have : n / 10 < n := Nat.div_lt_self hn0 (by omega)
        omega
      obtain ⟨hne, hdig, hval⟩ := ih (n / 10) hlt
      have hmod : n % 10 < 10 := Nat.mod_lt _ (by omega)
      refine ⟨by simp [natDigitsAux, h10], ?_, ?_⟩
      · simp only [natDigitsAux, if_neg h10, List.all_append, List.all_cons,
          List.all_nil, Bool.and_true, Bool.and_eq_true]
        exact ⟨hdig, isDig_ofNat_digit _ hmod⟩
      · simp only [natDigitsAux, if_neg h10]
        rw [digitsVal_append, hval, digVal, toNat_ofNat_digit _ hmod]
        omega

theorem pyNat?_pyStr (n : ℕ) : pyNat? (pyStr n) = some n := by
  obtain ⟨hne, hdig, hval⟩ := natDigitsAux_spec (n + 1) n (by omega)
  have hdata : (pyStr n).data = natDigitsAux (n + 1) n := rfl
  rw [pyNat?, hdata, if_neg hne, if_pos hdig, hval]

theorem pyStr_injective : Function.Injective pyStr := by
  intro a b hab
  have := pyNat?_pyStr a
  rw [hab, pyNat?_pyStr b] at this
  exact (Option.some_injective _ this).symm

theorem digitsVal_cons_zero (cs : List Char) :
    digitsVal ('0' :: cs) = digitsVal cs := by
  simp [digitsVal, digVal]

theorem pyNat?_pad2 (n : ℕ) : pyNat? (pad2 n) = some n := by
  obtain ⟨hne, hdig, hval⟩ := natDigitsAux_spec (n + 1) n (by omega)
  by_cases h : n < 10
  · have hdata : (pad2 n).data = '0' :: natDigitsAux (n + 1) n := by
      simp [pad2, if_pos h, pyStr]
    have hdig' : ('0' :: natDigitsAux (n + 1) n).all isDig = true := by
      simp only [List.all_cons, Bool.and_eq_true]
      refine ⟨by decide, ?_⟩
      simpa using hdig
    rw [pyNat?, hdata, if_neg (by simp), if_pos hdig', digitsVal_cons_zero, hval]
  · simp only [pad2, if_neg h]
    exact pyNat?_pyStr n

theorem pad2_injective : Function.Injective pad2 := by
  intro a b hab
  have := pyNat?_pad2 a
  rw [hab, pyNat?_pad2 b] at this
  exact (Option.some_injective _ this).symm

theorem Dec.farFrom_iff (a b : Dec) :
    a.farFrom b = true ↔ |a.toRat - b.toRat| > 50 := by
  have key : a.toRat - b.toRat =
      ((a.m * 10 ^ b.s - b.m * 10 ^ a.s : ℤ) : ℚ) / 10 ^ (a.s + b.s) := by
    rw [Dec.toRat, Dec.toRat]
    push_cast
    field_simp
    ring
  have hpos : (0 : ℚ) < 10 ^ (a.s + b.s) := by positivity
  rw [Dec.farFrom, decide_eq_true_eq, key, gt_iff_lt, abs_div,
    abs_of_pos hpos, lt_div_iff₀ hpos]
  have habs : |((a.m * 10 ^ b.s - b.m * 10 ^ a.s : ℤ) : ℚ)| =
      ((a.m * 10 ^ b.s - b.m * 10 ^ a.s).natAbs : ℚ) := by
    rw [Int.cast_natAbs]
    push_cast
    ring
  rw [habs]
  constructor <;> intro h <;> exact_mod_cast h

example :
    process_svg [⟨[("d", "M 10 20 L 3 4")]⟩, ⟨[("d", "M 100 100")]⟩] =
      .ok ([⟨[("d", "M 10 20 L 3 4"), ("fill", "#CCCCCC"), ("style", "fill:#CCCCCC")]⟩,
            ⟨[("d", "M 100 100"), ("fill", "#CCCCCC"), ("style", "fill:#CCCCCC")]⟩],
           [⟨[("d", "M 10 20 L 3 4"), ("fill", "#000000"), ("style", "fill:#000000"), ("class", "stroke-1")]⟩,
            ⟨[("d", "M 100 100"), ("fill", "#000000"), ("style", "fill:#000000"), ("class", "stroke-2")]⟩]) := by
  decide

theorem stableInsert_perm {α : Type} (le : α → α → Bool) (x : α) (l : List α) :
    (stableInsert le x l).Perm (x :: l) := by
  induction l with
  | nil => simp [stableInsert]
  | cons y ys ih =>
    rw [stableInsert]
    by_cases h : (le x y && !le y x) = true
    · rw [if_pos h]
    · rw [if_neg h]
      exact (ih.cons y).trans (List.Perm.swap x y ys)

theorem pySorted_perm {α : Type} (le : α → α → Bool) (l : List α) :
    (pySorted le l).Perm l := by
  suffices h : ∀ (l acc : List α),
      (l.foldl (fun acc x => stableInsert le x acc) acc).Perm (acc ++ l) by
    simpa using h l []
  intro l
  induction l with
  | nil => simp
  | cons x xs ih =>
    intro acc
    refine (ih _).trans (((stableInsert_perm le x acc).append_right xs).trans ?_)
    simpa using (@List.perm_middle _ x acc xs).symm

theorem stableInsert_sorted {α : Type} {le : α → α → Bool}
    (htot : ∀ a b, le a b || le b a)
    (htrans : ∀ a b c, le a b = true → le b c = true → le a c = true)
    (x : α) {l : List α} (hl : l.Pairwise (fun a b => le a b = true)) :
    (stableInsert le x l).Pairwise (fun a b => le a b = true) := by
  induction l with
  | nil => simp [stableInsert]
  | cons y ys ih =>
    rw [stableInsert]
    rcases List.pairwise_cons.mp hl with ⟨hy, hys⟩
    by_cases h : (le x y && !le y x) = true
    · rw [if_pos h]
      rcases Bool.and_eq_true .. ▸ h with ⟨hxy, _⟩
      refine List.pairwise_cons.mpr ⟨?_, hl⟩
      intro z hz
      rcases List.mem_cons.mp hz with rfl | hz
      · exact hxy
      · exact htrans x y z hxy (hy z hz)
    · rw [if_neg h]
      have hyx : le y x = true := by
        rcases Bool.or_eq_true .. ▸ htot x y with hxy | hyx
        · by_cases hyx : le y x = true
          · exact hyx
          · exact absurd (by simp [hxy, hyx]) h
        · exact hyx
      refine List.pairwise_cons.mpr ⟨?_, ih hys⟩
      intro z hz
      have := (stableInsert_perm le x ys).mem_iff.mp hz
      rcases List.mem_cons.mp this with rfl | hz'
      · exact hyx
      · exact hy z hz'

theorem pySorted_sorted {α : Type} {le : α → α → Bool}
    (htot : ∀ a b, le a b || le b a)
    (htrans : ∀ a b c, le a b = true → le b c = true → le a c = true)
    (l : List α) :
    (pySorted le l).Pairwise (fun a b => le a b = true) := by
  suffices h : ∀ (l acc : List α),
      acc.Pairwise (fun a b => le a b = true) →
      (l.foldl (fun acc x => stableInsert le x acc) acc).Pairwise
        (fun a b => le a b = true) by
    exact h l [] (by simp)
  intro l
  induction l with
  | nil => intro acc h; simpa using h
  | cons x xs ih =>
    intro acc hacc
    exact ih _ (stableInsert_sorted htot htrans x hacc)

theorem charsLe_cons_iff (x y : Char) (xs ys : List Char) :
    charsLe (x :: xs) (y :: ys) = true ↔
      x.toNat < y.toNat ∨ (x.toNat = y.toNat ∧ charsLe xs ys = true) := by
  rw [charsLe]
  split_ifs with h1 h2
  · simp [h1]
  · simp [h1, h2]
  · simp [h1, h2]

theorem charsLe_total (a b : List Char) : charsLe a b || charsLe b a := by
  induction a generalizing b with
  | nil => simp [charsLe]
  | cons x xs ih =>
    cases b with
    | nil => simp [charsLe]
    | cons y ys =>
      simp only [Bool.or_eq_true, charsLe_cons_iff]
      rcases Nat.lt_trichotomy x.toNat y.toNat with h | h | h
      · exact Or.inl (Or.inl h)
      · have := Bool.or_eq_true _ _ ▸ ih ys
        rcases this with h' | h'
        · exact Or.inl (Or.inr ⟨h, h'⟩)
        · exact Or.inr (Or.inr ⟨h.symm, h'⟩)
      · exact Or.inr (Or.inl h)

theorem charsLe_trans (a b c : List Char) (hab : charsLe a b = true)
    (hbc : charsLe b c = true) : charsLe a c = true := by
  induction a generalizing b c with
  | nil => simp [charsLe]
  | cons x xs ih =>
    cases b with
    | nil => simp [charsLe] at hab
    | cons y ys =>
      cases c with
      | nil => simp [charsLe] at hbc
      | cons z zs =>
        rw [charsLe_cons_iff] at hab hbc ⊢
        rcases hab with h | ⟨h, hab'⟩ <;> rcases hbc with h' | ⟨h', hbc'⟩
        · exact Or.inl (by omega)
        · exact Or.inl (by omega)
        · exact Or.inl (by omega)
        · exact Or.inr ⟨by omega, ih ys zs hab' hbc'⟩

theorem Dec.le_iff (a b : Dec) : a.le b = true ↔ a.toRat ≤ b.toRat := by
  rw [Dec.le, decide_eq_true_eq, Dec.toRat, Dec.toRat,
    div_le_div_iff₀ (by positivity) (by positivity)]
  constructor <;> intro h <;> exact_mod_cast h

theorem decLe_total (a b : Dec) : a.le b || b.le a := by
  rw [Bool.or_eq_true, Dec.le_iff, Dec.le_iff]
  exact le_total a.toRat b.toRat

theorem decLe_trans (a b c : Dec) (hab : a.le b = true) (hbc : b.le c = true) :
    a.le c = true := by
  rw [Dec.le_iff] at hab hbc ⊢
  exact hab.trans hbc

/-! ## Attribute-map lemmas -/
theorem find?_setAttr_same (l : List (String × String)) (k v : String) :
    (setAttr l k v).find? (fun kv => kv.1 = k) = some (k, v) := by
  induction l with
  | nil => simp [setAttr]
  | cons kv t ih =>
    rw [setAttr]
    by_cases h : kv.1 = k
    · simp [h]
    · rw [if_neg h, List.find?_cons_of_neg _ (by simp [h])]
      exact ih

theorem find?_setAttr_other (l : List (String × String)) (k' v k : String)
    (hk : k' ≠ k) :
    (setAttr l k' v).find? (fun kv => kv.1 = k) = l.find? (fun kv => kv.1 = k) := by
  induction l with
  | nil => simp [setAttr, hk]
  | cons kv t ih =>
    rw [setAttr]
    by_cases h : kv.1 = k'
    · rw [if_pos h, List.find?_cons_of_neg _ (by simp [hk]),
        List.find?_cons_of_neg _ (by simp [h ▸ hk])]
    · rw [if_neg h]
      by_cases h2 : kv.1 = k
      · rw [List.find?_cons_of_pos _ (by simp [h2]),
          List.find?_cons_of_pos _ (by simp [h2])]
      · rw [List.find?_cons_of_neg _ (by simp [h2]),
          List.find?_cons_of_neg _ (by simp [h2])]
        exact ih

theorem get_set_same (p : PyPath) (k v d : String) :
    (p.set k v).get k d = v := by
  rw [PyPath.get, PyPath.set]
  simp [find?_setAttr_same]

theorem get_set_other (p : PyPath) (k' v k d : String) (hk : k' ≠ k) :
    (p.set k' v).get k d = p.get k d := by
  rw [PyPath.get, PyPath.set]
  simp only [find?_setAttr_other p.attrs k' v k hk]
  rfl

theorem markOne_class (p : PyPath) (k : ℕ) (d : String) :
    (markOne p k).get "class" d = "stroke-" ++ pyStr k := by
  rw [markOne, get_set_same]

theorem markOne_fill (p : PyPath) (k : ℕ) (d : String) :
    (markOne p k).get "fill" d = "#000000" := by
  rw [markOne, get_set_other _ _ _ _ _ (by decide),
    get_set_other _ _ _ _ _ (by decide), get_set_same]

theorem grayCopy_fill (p : PyPath) (d : String) :
    (grayCopy p).get "fill" d = "#CCCCCC" := by
  rw [grayCopy, get_set_other _ _ _ _ _ (by decide), get_set_same]

theorem grayCopy_class (p : PyPath) (d : String) :
    (grayCopy p).get "class" d = p.get "class" d := by
  rw [grayCopy, get_set_other _ _ _ _ _ (by decide),
    get_set_other _ _ _ _ _ (by decide)]

theorem newStrokeCond_zero (coords last : Option (Dec × Dec)) :
    newStrokeCond 0 coords last = true := by
  simp [newStrokeCond]

theorem markPaths_spec (ps : List PyPath) :
    ∀ (i cur : ℕ) (last : Option (Dec × Dec)) (out : List PyPath),
      markPaths i cur last ps = .ok out →
      ∃ ks : List ℕ,
        out = List.zipWith markOne ps ks ∧
        ks.length = ps.length ∧
        List.Chain' strokeStep (cur :: ks) ∧
        (i = 0 → ps ≠ [] → ks.head? = some (cur + 1)) := by
  induction ps with
  | nil =>
    intro i cur last out h
    rw [markPaths] at h
    refine ⟨[], ?_, rfl, List.chain'_singleton cur, fun _ h2 => absurd rfl h2⟩
    have := Except.ok.inj h
    simp [← this]
  | cons p ps ih =>
    intro i cur last out h
    rw [markPaths] at h
    rcases hc : get_path_coords (p.get "d" "") with e | coords <;> rw [hc] at h
    · exact absurd h (by simp)
    · rcases coords with _ | c <;> simp only at h
      · by_cases hnew : newStrokeCond i none last = true
        · rw [if_pos ⟨hnew, trivial⟩] at h
          exact absurd h (by simp)
        · have hi : i ≠ 0 := fun h0 => hnew (h0 ▸ newStrokeCond_zero none last)
          rw [if_neg (fun hx => hnew hx.1), if_neg hnew] at h
          rcases hrec : markPaths (i + 1) cur last ps with e | rest <;> rw [hrec] at h
          · exact absurd h (by simp)
          · obtain ⟨ks, hout, hlen, hchain, _⟩ := ih (i + 1) cur last rest hrec
            refine ⟨cur :: ks, ?_, by simp [hlen],
              List.chain'_cons.mpr ⟨Or.inl rfl, hchain⟩, fun h0 _ => absurd h0 hi⟩
            have := Except.ok.inj h
            rw [← this, hout]
            rfl
      · rw [if_neg (fun hx => Option.noConfusion hx.2)] at h
        by_cases hnew : newStrokeCond i (some c) last = true
        · rw [if_pos hnew] at h
          rcases hrec : markPaths (i + 1) (cur + 1) (some c) ps with e | rest <;>
            rw [hrec] at h
          · exact absurd h (by simp)
          · obtain ⟨ks, hout, hlen, hchain, _⟩ := ih (i + 1) (cur + 1) (some c) rest hrec
            refine ⟨(cur + 1) :: ks, ?_, by simp [hlen],
              List.chain'_cons.mpr ⟨Or.inr rfl, hchain⟩, fun _ _ => rfl⟩
            have := Except.ok.inj h
            rw [← this, hout]
            rfl
        · have hi : i ≠ 0 := fun h0 => hnew (h0 ▸ newStrokeCond_zero (some c) last)
          rw [if_neg hnew] at h
          rcases hrec : markPaths (i + 1) cur (some c) ps with e | rest <;> rw [hrec] at h
          · exact absurd h (by simp)
          · obtain ⟨ks, hout, hlen, hchain, _⟩ := ih (i + 1) cur (some c) rest hrec
            refine ⟨cur :: ks, ?_, by simp [hlen],
              List.chain'_cons.mpr ⟨Or.inl rfl, hchain⟩, fun h0 _ => absurd h0 hi⟩
            have := Except.ok.inj h
            rw [← this, hout]
            rfl

/-! ## Stroke-number chains: bounds and coverage -/
theorem le_foldr_max (ks : List ℕ) : ∀ k ∈ ks, k ≤ ks.foldr max 0 := by
  induction ks with
  | nil => simp
  | cons a t ih =>
    intro k hk
    rcases List.mem_cons.mp hk with rfl | hk'
    · exact le_max_left _ _
    · exact (ih k hk').trans (le_max_right _ _)

theorem foldr_max_mem (ks : List ℕ) (h1 : 1 ≤ ks.foldr max 0) :
    ks.foldr max 0 ∈ ks := by
  induction ks with
  | nil => simp at h1
  | cons a t ih =>
    simp only [List.foldr_cons]
    rcases max_choice a (t.foldr max 0) with h | h
    · rw [h]; exact List.mem_cons_self a t
    · rw [h]
      rw [List.foldr_cons, h] at h1
      exact List.mem_cons_of_mem a (ih h1)

theorem chain'_strokeStep_lb (c : ℕ) (ks : List ℕ)
    (h : List.Chain' strokeStep (c :: ks)) : ∀ k ∈ ks, c ≤ k := by
  induction ks generalizing c with
  | nil => simp
  | cons k1 t ih =>
    intro k hk
    have hstep : strokeStep c k1 := (List.chain'_cons.mp h).1
    have htail : List.Chain' strokeStep (k1 :: t) := (List.chain'_cons.mp h).2
    rcases List.mem_cons.mp hk with rfl | hk'
    · rcases hstep with h1 | h1 <;> omega
    · have := ih k1 htail k hk'
      rcases hstep with h1 | h1 <;> omega

theorem chain'_strokeStep_between (c : ℕ) (ks : List ℕ)
    (h : List.Chain' strokeStep (c :: ks)) :
    ∀ k ∈ ks, ∀ m, c < m → m ≤ k → m ∈ ks := by
  induction ks generalizing c with
  | nil => simp
  | cons k1 t ih =>
    intro k hk m hcm hmk
    have hstep : strokeStep c k1 := (List.chain'_cons.mp h).1
    have htail : List.Chain' strokeStep (k1 :: t) := (List.chain'_cons.mp h).2
    rcases List.mem_cons.mp hk with rfl | hk'
    · rcases hstep with h1 | h1
      · omega
      · have hmk1 : m = k := by omega
        exact hmk1 ▸ List.mem_cons_self k t
    · by_cases hm : m ≤ k1
      · have : m = k1 := by rcases hstep with h1 | h1 <;> omega
        exact this ▸ List.mem_cons_self k1 t
      · exact List.mem_cons_of_mem k1 (ih k1 htail k hk' m (by omega) hmk)

/-! ## Step documents as a single filter -/
theorem foldl_removeStroke (js : List ℕ) (paths : List PyPath) :
    js.foldl removeStroke paths =
      paths.filter (fun p =>
        js.all (fun j => decide (¬(p.get "class" "" = "stroke-" ++ pyStr j)))) := by
  induction js generalizing paths with
  | nil => simp [List.filter_true]
  | cons j js ih =>
    rw [List.foldl_cons, ih, removeStroke, List.filter_filter]
    refine List.filter_congr ?_
    intro p _
    simp only [List.all_cons, Bool.and_comm]

theorem stepPaths_eq_filter (paths : List PyPath) (i K : ℕ) :
    stepPaths paths i K =
      paths.filter (fun p =>
        (List.range' (i + 1) (K - i)).all
          (fun j => decide (¬(p.get "class" "" = "stroke-" ++ pyStr j)))) := by
  rw [stepPaths, foldl_removeStroke]

/-! ## Stroke classes round-trip -/
theorem isPrefixOf_append (l t : List Char) : List.isPrefixOf l (l ++ t) = true := by
  induction l with
  | nil => simp [List.isPrefixOf]
  | cons a l ih => simp [List.isPrefixOf, ih]

theorem splitOnAux_noSep (sep : Char) (cs acc : List Char)
    (h : ∀ c ∈ cs, ¬c = sep) :
    splitOnAux sep cs acc = [acc.reverse ++ cs] := by
  induction cs generalizing acc with
  | nil => simp [splitOnAux]
  | cons c cs ih =>
    rw [splitOnAux, if_neg (h c (List.mem_cons_self c cs))]
    rw [ih _ (fun c' hc' => h c' (List.mem_cons_of_mem c hc'))]
    simp

theorem isDig_ne_dash (c : Char) (h : isDig c = true) : ¬c = '-' :=
  fun hc => absurd (hc ▸ h) (by decide)

theorem pySplitOn_strokeClass (k : ℕ) :
    pySplitOn ("stroke-" ++ pyStr k) '-' = ["stroke", pyStr k] := by
  obtain ⟨hne, hdig, hval⟩ := natDigitsAux_spec (k + 1) k (by omega)
  have hdata : ("stroke-" ++ pyStr k).data =
      's' :: 't' :: 'r' :: 'o' :: 'k' :: 'e' :: '-' :: (pyStr k).data := by
    rw [String.data_append]
    rfl
  have hnodash : ∀ c ∈ (pyStr k).data, ¬c = '-' := by
    intro c hc
    exact isDig_ne_dash c (List.all_eq_true.mp hdig c hc)
  rw [pySplitOn, hdata]
  rw [splitOnAux, if_neg (by decide), splitOnAux, if_neg (by decide),
    splitOnAux, if_neg (by decide), splitOnAux, if_neg (by decide),
    splitOnAux, if_neg (by decide), splitOnAux, if_neg (by decide),
    splitOnAux, if_pos rfl, splitOnAux_noSep _ _ _ hnodash]
  rfl

theorem parseStrokeClass_empty : parseStrokeClass "" = none := by decide

theorem parseStrokeClass_stroke (k : ℕ) :
    parseStrokeClass ("stroke-" ++ pyStr k) = some k := by
  have hne : ("stroke-" ++ pyStr k) ≠ "" := by
    intro h
    have := congrArg String.data h
    rw [String.data_append] at this
    exact absurd this (by simp)
  have hpre : pyStartsWith ("stroke-" ++ pyStr k) "stroke-" = true := by
    rw [pyStartsWith]
    have : ("stroke-" ++ pyStr k).data = "stroke-".data ++ (pyStr k).data :=
      String.data_append _ _
    rw [this]
    exact isPrefixOf_append _ _
  rw [parseStrokeClass, if_pos ⟨hne, hpre⟩, pySplitOn_strokeClass]
  simpa using pyNat?_pyStr k

/-- A class equal to the empty string is never a stroke class and never
matches a removal pass. -/
theorem strokeClass_ne_empty (j : ℕ) : ¬("" = "stroke-" ++ pyStr j) := by
  intro h
  have := congrArg String.data h
  rw [String.data_append] at this
  exact absurd this (by simp)

theorem strokeClass_inj (a b : ℕ)
    (h : ("stroke-" ++ pyStr a : String) = "stroke-" ++ pyStr b) : a = b := by
  have hd := congrArg String.data h
  rw [String.data_append, String.data_append] at hd
  have := List.append_cancel_left hd
  exact pyStr_injective (String.ext this)

/-! ## `process_svg` output structure -/
theorem process_svg_spec (originals gray black : List PyPath)
    (hok : process_svg originals = .ok (gray, black)) :
    gray = originals.map grayCopy ∧
    ∃ ks : List ℕ,
      black = List.zipWith markOne originals ks ∧
      ks.length = originals.length ∧
      List.Chain' strokeStep (0 :: ks) ∧
      (originals ≠ [] → ks.head? = some 1) := by
  rw [process_svg] at hok
  rcases hmk : markPaths 0 0 none originals with e | b <;> rw [hmk] at hok
  · exact absurd hok (by simp)
  · have hpair := Except.ok.inj hok
    obtain ⟨ks, hout, hlen, hchain, hhead⟩ := markPaths_spec originals 0 0 none b hmk
    have hg : List.map grayCopy originals = gray := congrArg Prod.fst hpair
    have hb : b = black := congrArg Prod.snd hpair
    exact ⟨hg.symm, ks, hb ▸ hout, hlen, hchain, hhead rfl⟩

theorem filterMap_class_zipWith (ps : List PyPath) (ks : List ℕ)
    (hlen : ks.length = ps.length) :
    (List.zipWith markOne ps ks).filterMap
      (fun p => parseStrokeClass (p.get "class" "")) = ks := by
  induction ps generalizing ks with
  | nil =>
    have : ks = [] := List.length_eq_zero.mp (by simpa using hlen)
    simp [this]
  | cons p ps ih =>
    cases ks with
    | nil => simp at hlen
    | cons k ks =>
      simp only [List.zipWith_cons_cons, List.filterMap_cons, markOne_class,
        parseStrokeClass_stroke]
      rw [ih ks (by simpa using hlen)]

theorem strokeNumbers_processed (originals : List PyPath) (ks : List ℕ)
    (hclass : ∀ p ∈ originals, p.get "class" "" = "")
    (hlen : ks.length = originals.length) :
    strokeNumbers (originals.map grayCopy ++ List.zipWith markOne originals ks) = ks := by
  rw [strokeNumbers, List.filterMap_append]
  have hgray : (originals.map grayCopy).filterMap
      (fun p => parseStrokeClass (p.get "class" "")) = [] := by
    rw [List.filterMap_eq_nil_iff]
    intro p hp
    rcases List.mem_map.mp hp with ⟨q, hq, rfl⟩
    rw [grayCopy_class, hclass q hq, parseStrokeClass_empty]
  rw [hgray, List.nil_append]
  exact filterMap_class_zipWith originals ks hlen

theorem stepPaths_processed (originals : List PyPath) (ks : List ℕ) (N K : ℕ)
    (hclass : ∀ p ∈ originals, p.get "class" "" = "")
    (hkK : ∀ k ∈ ks, k ≤ K) :
    stepPaths (originals.map grayCopy ++ List.zipWith markOne originals ks) N K =
      (originals.map grayCopy ++ List.zipWith markOne originals ks).filter
        (keptAtStep N) := by
  rw [stepPaths_eq_filter]
  refine List.filter_congr ?_
  intro p hp
  rcases List.mem_append.mp hp with hpg | hpb
  · rcases List.mem_map.mp hpg with ⟨q, hq, rfl⟩
    have hcl : (grayCopy q).get "class" "" = "" := by
      rw [grayCopy_class, hclass q hq]
    have hall : (List.range' (N + 1) (K - N)).all
        (fun j => decide (¬((grayCopy q).get "class" "" = "stroke-" ++ pyStr j))) = true := by
      rw [List.all_eq_true]
      intro j _
      rw [hcl]
      exact decide_eq_true (strokeClass_ne_empty j)
    rw [hall, keptAtStep, hcl, parseStrokeClass_empty]
  · obtain ⟨j, hj, hpe⟩ := List.mem_iff_getElem.mp hpb
    rw [List.getElem_zipWith] at hpe
    have hjk : j < ks.length := by
      have := hj
      rw [List.length_zipWith] at this
      omega
    have hjo : j < originals.length := by
      have := hj
      rw [List.length_zipWith] at this
      omega
    have hkmem : ks[j] ∈ ks := List.getElem_mem hjk
    have hkK' : ks[j] ≤ K := hkK _ hkmem
    subst hpe
    rw [keptAtStep, markOne_class, parseStrokeClass_stroke]
    by_cases hN : ks[j] ≤ N
    · have hall : (List.range' (N + 1) (K - N)).all
          (fun j' => decide (¬(("stroke-" ++ pyStr ks[j] : String) =
            "stroke-" ++ pyStr j'))) = true := by
        rw [List.all_eq_true]
        intro j' hj'
        refine decide_eq_true ?_
        intro heq
        have := strokeClass_inj _ _ heq
        rcases List.mem_range'.mp hj' with ⟨i, hi, rfl⟩
        omega
      rw [hall]
      exact (decide_eq_true hN).symm
    · have hmem : ks[j] ∈ List.range' (N + 1) (K - N) := by
        rw [List.mem_range']
        exact ⟨ks[j] - N - 1, by omega, by omega⟩
      have hall : (List.range' (N + 1) (K - N)).all
          (fun j' => decide (¬(("stroke-" ++ pyStr ks[j] : String) =
            "stroke-" ++ pyStr j'))) = false := by
        rw [List.all_eq_false]
        exact ⟨ks[j], hmem, by simp⟩
      rw [hall]
      exact (decide_eq_false hN).symm

theorem writeSvg_mem_genOps (fs : FS) (pref : String) (paths : List PyPath)
    (K N : ℕ) (h1 : 1 ≤ N) (hK : N ≤ K)
    (hskip : existsNonzero fs (pngFile pref N) = false) :
    FOp.writeSvg (svgFile pref N) (stepPaths paths N K) ∈ genOps fs pref paths K := by
  rw [genOps, List.mem_flatMap]
  refine ⟨N, ?_, ?_⟩
  · rw [List.mem_range']
    exact ⟨N - 1, by omega, by omega⟩
  · rw [if_neg (by simp [hskip])]
    simp

/-! ## Filter pipeline lemmas -/
theorem apply_filters_map_custom {α : Type} (ws : List α) (preds : List (α → Bool)) :
    apply_filters ws (preds.map (fun p l => filter_by_custom l p)) =
      ws.filter (fun w => preds.all (fun p => p w)) := by
  induction preds generalizing ws with
  | nil => simp [apply_filters, List.filter_true]
  | cons p ps ih =>
    rw [List.map_cons, apply_filters, List.foldl_cons]
    have : List.foldl (fun result f => f result) (filter_by_custom ws p)
        (ps.map (fun p l => filter_by_custom l p)) =
        apply_filters (filter_by_custom ws p) (ps.map (fun p l => filter_by_custom l p)) := rfl
    rw [this, ih, filter_by_custom, List.filter_filter]
    refine List.filter_congr ?_
    intro w _
    simp only [List.all_cons, Bool.and_comm]

theorem perm_all_eq {α : Type} (w : α) {l1 l2 : List (α → Bool)} (h : l1.Perm l2) :
    l1.all (fun p => p w) = l2.all (fun p => p w) := by
  by_cases h1 : l1.all (fun p => p w) = true
  · rw [h1]
    symm
    rw [List.all_eq_true] at h1 ⊢
    exact fun p hp => h1 p (h.mem_iff.mpr hp)
  · have h1' : l1.all (fun p => p w) = false := Bool.eq_false_iff.mpr h1
    rw [h1']
    symm
    rw [List.all_eq_false] at h1' ⊢
    obtain ⟨p, hp, hpw⟩ := h1'
    exact ⟨p, h.mem_iff.mp hp, hpw⟩

/-- C3: `apply_filters` applied to predicate-based filters keeps exactly
the records satisfying all the predicates, keeps them in their input
order (the result is the filter of the input list, hence a sublist of
it), and applying the filters in any permuted sequence yields the same
result. -/
theorem C3_apply_filters_conjunction (α : Type) (ws : List α)
    (preds : List (α → Bool)) :
    apply_filters ws (preds.map (fun p l => filter_by_custom l p)) =
      ws.filter (fun w => preds.all (fun p => p w)) ∧
    (apply_filters ws (preds.map (fun p l => filter_by_custom l p))).Sublist ws ∧
    (∀ preds' : List (α → Bool), preds.Perm preds' →
      apply_filters ws (preds'.map (fun p l => filter_by_custom l p)) =
        apply_filters ws (preds.map (fun p l => filter_by_custom l p))) := by
  refine ⟨apply_filters_map_custom ws preds, ?_, ?_⟩
  · rw [apply_filters_map_custom]
    exact List.filter_sublist ws
  · intro preds' hperm
    rw [apply_filters_map_custom, apply_filters_map_custom]
    refine List.filter_congr ?_
    intro w _
    exact perm_all_eq w hperm.symm

/-- Witness for C3 at a concrete input: two predicate filters over a
small list, applied in both orders. -/
theorem C3_witness :
    apply_filters [1, 2, 3]
        (([fun n => decide (n % 2 = 1), fun n => decide (n ≤ 2)] :
          List (ℕ → Bool)).map (fun p l => filter_by_custom l p)) =
      [1, 2, 3].filter (fun w =>
        ([fun n => decide (n % 2 = 1), fun n => decide (n ≤ 2)] :
          List (ℕ → Bool)).all (fun p => p w)) ∧
    apply_filters [1, 2, 3]
        (([fun n => decide (n ≤ 2), fun n => decide (n % 2 = 1)] :
          List (ℕ → Bool)).map (fun p l => filter_by_custom l p)) =
      apply_filters [1, 2, 3]
        (([fun n => decide (n % 2 = 1), fun n => decide (n ≤ 2)] :
          List (ℕ → Bool)).map (fun p l => filter_by_custom l p)) :=
  ⟨(C3_apply_filters_conjunction ℕ [1, 2, 3] _).1,
   (C3_apply_filters_conjunction ℕ [1, 2, 3] _).2.2 _
     (List.Perm.swap (fun n => decide (n ≤ 2)) (fun n => decide (n % 2 = 1)) [])⟩

/-- C5: when loading fails, the step returns the empty list instead of
propagating the exception: `load_words` returns `.ok []` (it does not
re-raise) both for a missing file and for invalid JSON, and `lookup`
returns `[]` whenever any error occurs while reading the dictionary
(its result type is a plain list: it never raises). -/
theorem C5_loading_error_handling :
    load_words .missing = .ok [] ∧
    load_words .invalid = .ok [] ∧
    (∀ (e : PyErr) (w : String), lookup (.error e) w = []) :=
  ⟨rfl, rfl, fun _ _ => rfl⟩

/-- C7: the grouping loop of `process_svg` produces exactly one marked
path per input path (it visits each path once), `apply_filters` is one
left-to-right pass over the filter list (appending more filters
continues the same pass), and a predicate filter never grows the list.
Termination on every finite input is inherent: both embeddings are
total structural recursions. -/
theorem C7_single_pass :
    (∀ (i cur : ℕ) (last : Option (Dec × Dec)) (ps out : List PyPath),
      markPaths i cur last ps = .ok out → out.length = ps.length) ∧
    (∀ (α : Type) (ws : List α) (fs gs : List (List α → List α)),
      apply_filters ws (fs ++ gs) = apply_filters (apply_filters ws fs) gs) ∧
    (∀ (α : Type) (ws : List α) (p : α → Bool),
      (filter_by_custom ws p).length ≤ ws.length) := by
  refine ⟨?_, ?_, ?_⟩
  · intro i cur last ps out h
    obtain ⟨ks, hout, hlen, _, _⟩ := markPaths_spec ps i cur last out h
    rw [hout, List.length_zipWith, hlen]
    exact min_self _
  · intro α ws fs gs
    rw [apply_filters, apply_filters, apply_filters, List.foldl_append]
  · intro α ws p
    exact List.length_filter_le p ws

/-- Witness for C7 at a concrete input: one path through the grouping
loop. -/
theorem C7_witness :
    ([⟨[("d", "M 0 0"), ("fill", "#000000"), ("style", "fill:#000000"),
        ("class", "stroke-1")]⟩] : List PyPath).length =
      ([⟨[("d", "M 0 0")]⟩] : List PyPath).length :=
  C7_single_pass.1 0 0 none [⟨[("d", "M 0 0")]⟩] _ (by decide)

theorem pyUpper_eq_empty (s : String) (h : pyUpper s = "") : s = "" := by
  have hd := congrArg String.data h
  simp only [pyUpper] at hd
  have : s.data.map pyCharUpper = [] := hd
  exact String.ext (List.map_eq_nil_iff.mp this)

/-- C9 (amended): `filter_by_grammar` keeps exactly the records whose
(upper-cased) grammar field matches one of the four claimed shapes of
the upper-cased query — where a record without a grammar field
contributes the empty string — and, for a non-empty query, a record
whose grammar field is missing is never kept.  (For the empty query the
original claim fails: such records are kept, see the counterexample.) -/
theorem C9_filter_by_grammar (ws : List Word) (g : String) :
    filter_by_grammar ws g = ws.filter (fun w => decide (grammarMatchesSpec g w)) ∧
    (g ≠ "" → ∀ w ∈ filter_by_grammar ws g, w.grammar ≠ none) := by
  constructor
  · rw [filter_by_grammar]
    refine List.filter_congr ?_
    intro w _
    apply Bool.eq_iff_iff.mpr
    simp [grammarMatchesSpec, Word.grammarOr, or_assoc]
  · intro hg w hw
    intro hnone
    rw [filter_by_grammar] at hw
    have hcond := (List.mem_filter.mp hw).2
    rw [Word.grammarOr, hnone] at hcond
    have hup : pyUpper (Option.getD none "") = "" := rfl
    rw [hup] at hcond
    have hgne : pyUpper g ≠ "" := fun hu => hg (pyUpper_eq_empty g hu)
    simp only [Bool.or_eq_true, beq_iff_eq] at hcond
    rcases hcond with ((h1 | h2) | h3) | h4
    · exact hgne h1.symm
    · have hd := congrArg String.data h2
      rw [String.data_append, String.data_append] at hd
      exact absurd hd.symm (by simp)
    · rw [pyStartsWith] at h3
      have : (pyUpper g ++ "/").data ≠ [] := by
        rw [String.data_append]
        simp
      rcases hne : (pyUpper g ++ "/").data with _ | ⟨c, cs⟩
      · exact this hne
      · rw [hne] at h3
        simp [List.isPrefixOf] at h3
    · rw [pyStartsWith] at h4
      have hd : ("(" ++ pyUpper g ++ ")/").data =
          '(' :: (pyUpper g ++ ")/").data := by
        rw [String.data_append, String.data_append]
        rfl
      rw [hd] at h4
      simp [List.isPrefixOf] at h4

/-- Counterexample for C9 as stated: with the empty query, a record
whose grammar field is missing is kept by `filter_by_grammar`. -/
theorem C9_counterexample :
    ({ chineseword := "一", pinyin := "yi", grammar := none, levels := [],
       translations := [], frequency_score := none } : Word).grammar = none ∧
    filter_by_grammar
        [{ chineseword := "一", pinyin := "yi", grammar := none, levels := [],
           translations := [], frequency_score := none }] "" =
      [{ chineseword := "一", pinyin := "yi", grammar := none, levels := [],
         translations := [], frequency_score := none }] :=
  ⟨rfl, by decide⟩

/-! ## C10: frequency sorting -/
/-- C10: when no record carries a non-`None` `frequency_score`,
`sort_by_frequency` returns the pinyin sort of the list; otherwise it
returns a permutation of the list that is sorted by the numeric
interpretation of the scores, where a missing score, a `None` score, a
non-numeric string score all count as `0.0` and a numeric score is used
as it is. -/
theorem C10_sort_by_frequency (ws : List Word) (rev : Bool) :
    ((∀ w ∈ ws, w.hasFreq = false) →
      sort_by_frequency ws rev = sort_by_pinyin ws rev) ∧
    ((∃ w ∈ ws, w.hasFreq = true) →
      (sort_by_frequency ws rev).Perm ws ∧
      (sort_by_frequency ws rev).Pairwise (fun a b =>
        if rev then (get_frequency b).toRat ≤ (get_frequency a).toRat
        else (get_frequency a).toRat ≤ (get_frequency b).toRat)) ∧
    (∀ w : Word, w.frequency_score = none → get_frequency w = ⟨0, 0⟩) ∧
    (∀ w : Word, w.frequency_score = some .null → get_frequency w = ⟨0, 0⟩) ∧
    (∀ (w : Word) (s : String), w.frequency_score = some (.str s) →
      pyFloat? s = none → get_frequency w = ⟨0, 0⟩) ∧
    (∀ (w : Word) (v : Dec), w.frequency_score = some (.num v) →
      get_frequency w = v) := by
  refine ⟨?_, ?_, ?_, ?_, ?_, ?_⟩
  · intro h
    rw [sort_by_frequency]
    rw [if_pos ?_]
    rw [List.filter_eq_nil_iff]
    intro w hw
    rw [h w hw]
    simp
  · intro ⟨w, hw, hf⟩
    have hne : ws.filter Word.hasFreq ≠ [] := by
      intro hnil
      rw [List.filter_eq_nil_iff] at hnil
      exact (hnil w hw) hf
    rw [sort_by_frequency]
    simp only [if_neg hne]
    refine ⟨pySorted_perm _ ws, ?_⟩
    cases rev
    · have hsorted := @pySorted_sorted Word
        (fun a b : Word => (get_frequency a).le (get_frequency b))
        (fun a b => decLe_total _ _) (fun a b c => decLe_trans _ _ _) ws
      simp only [if_false, Bool.false_eq_true]
      refine hsorted.imp ?_
      intro a b hab
      simpa using (Dec.le_iff _ _).mp hab
    · have hsorted := @pySorted_sorted Word
        (fun a b : Word => (get_frequency b).le (get_frequency a))
        (fun a b => decLe_total _ _) (fun a b c hab hbc => decLe_trans _ _ _ hbc hab) ws
      simp only [if_true]
      refine hsorted.imp ?_
      intro a b hab
      simpa using (Dec.le_iff _ _).mp hab
  · intro w h
    rw [get_frequency, h]
  · intro w h
    rw [get_frequency, h]
  · intro w s h hs
    rw [get_frequency, h]
    simp only [hs]
  · intro w v h
    rw [get_frequency, h]

/-- Witness for C10 at concrete inputs: the fallback branch on a list
with no scores, and the sorting branch on a list with one numeric
score. -/
theorem C10_witness :
    sort_by_frequency
        [{ chineseword := "一", pinyin := "yi", grammar := none, levels := [],
           translations := [], frequency_score := none }] false =
      sort_by_pinyin
        [{ chineseword := "一", pinyin := "yi", grammar := none, levels := [],
           translations := [], frequency_score := none }] false ∧
    (sort_by_frequency
        [{ chineseword := "二", pinyin := "er", grammar := none, levels := [],
           translations := [], frequency_score := some (.num ⟨3, 0⟩) }] false).Perm
      [{ chineseword := "二", pinyin := "er", grammar := none, levels := [],
         translations := [], frequency_score := some (.num ⟨3, 0⟩) }] :=
  ⟨(C10_sort_by_frequency _ false).1 (by decide),
   ((C10_sort_by_frequency _ false).2.1
     ⟨_, List.mem_singleton.mpr rfl, by decide⟩).1⟩

theorem claimStrokes_nil (f : Bool) (cur : ℕ) (last : Option (Dec × Dec)) :
    claimStrokes f cur last [] = [] := rfl

theorem claimStrokes_cons (f : Bool) (cur : ℕ) (last c : Option (Dec × Dec))
    (cs : List (Option (Dec × Dec))) :
    claimStrokes f cur last (c :: cs) =
      (if claimNewStroke f c last then cur + 1 else cur) ::
        claimStrokes false (if claimNewStroke f c last then cur + 1 else cur)
          (match c with | some p => some p | none => last) cs := rfl

theorem farFrom_eq_decide (a b : Dec) :
    a.farFrom b = decide (|a.toRat - b.toRat| > 50) := by
  apply Bool.eq_iff_iff.mpr
  rw [decide_eq_true_eq]
  exact Dec.farFrom_iff a b

theorem newStrokeCond_eq_claim (i : ℕ) (coords last : Option (Dec × Dec)) :
    newStrokeCond i coords last = claimNewStroke (i == 0) coords last := by
  unfold newStrokeCond claimNewStroke
  congr 1
  rcases coords with _ | p <;> rcases last with _ | l <;> try rfl
  show (p.1.farFrom l.1 || p.2.farFrom l.2) = _
  rw [farFrom_eq_decide, farFrom_eq_decide]

theorem claimStrokes_length (cs : List (Option (Dec × Dec))) :
    ∀ (f : Bool) (cur : ℕ) (last : Option (Dec × Dec)),
      (claimStrokes f cur last cs).length = cs.length := by
  induction cs with
  | nil => intro f cur last; rfl
  | cons c cs ih =>
    intro f cur last
    rw [claimStrokes_cons]
    simpa using ih ..

theorem claimStrokes_chain (cs : List (Option (Dec × Dec))) :
    ∀ (f : Bool) (cur : ℕ) (last : Option (Dec × Dec)),
      List.Chain' strokeStep (cur :: claimStrokes f cur last cs) := by
  induction cs with
  | nil => intro f cur last; exact List.chain'_singleton cur
  | cons c cs ih =>
    intro f cur last
    rw [claimStrokes_cons]
    by_cases hnew : claimNewStroke f c last = true
    · simp only [hnew, if_true]
      exact List.chain'_cons.mpr ⟨Or.inr rfl, ih ..⟩
    · simp only [hnew, Bool.false_eq_true, if_false]
      exact List.chain'_cons.mpr ⟨Or.inl rfl, ih ..⟩

theorem claimStrokes_head (cs : List (Option (Dec × Dec))) (cur : ℕ)
    (last : Option (Dec × Dec)) (hne : cs ≠ []) :
    (claimStrokes true cur last cs).head? = some (cur + 1) := by
  cases cs with
  | nil => exact absurd rfl hne
  | cons c cs =>
    rw [claimStrokes_cons]
    simp [claimNewStroke]

theorem markPaths_eq_claim (ps : List PyPath) :
    ∀ (i cur : ℕ) (last : Option (Dec × Dec)) (out : List PyPath),
      markPaths i cur last ps = .ok out →
      ∃ cs : List (Option (Dec × Dec)),
        ps.map (fun p => get_path_coords (p.get "d" "")) = cs.map Except.ok ∧
        out = List.zipWith markOne ps (claimStrokes (i == 0) cur last cs) := by
  induction ps with
  | nil =>
    intro i cur last out h
    rw [markPaths] at h
    refine ⟨[], rfl, ?_⟩
    have := Except.ok.inj h
    simp [← this]
  | cons p ps ih =>
    intro i cur last out h
    rw [markPaths] at h
    rcases hc : get_path_coords (p.get "d" "") with e | coords <;> rw [hc] at h
    · exact absurd h (by simp)
    · have hsucc : ((i + 1 : ℕ) == 0) = false := by simp
      rcases coords with _ | c <;> simp only at h
      · by_cases hnew : newStrokeCond i none last = true
        · rw [if_pos ⟨hnew, trivial⟩] at h
          exact absurd h (by simp)
        · have hclaim : claimNewStroke (i == 0) none last = false :=
            newStrokeCond_eq_claim i none last ▸ Bool.eq_false_iff.mpr hnew
          rw [if_neg (fun hx => hnew hx.1), if_neg hnew] at h
          rcases hrec : markPaths (i + 1) cur last ps with e | rest <;> rw [hrec] at h
          · exact absurd h (by simp)
          · obtain ⟨cs, hmap, hout⟩ := ih (i + 1) cur last rest hrec
            refine ⟨none :: cs, by simp [hc, hmap], ?_⟩
            rw [claimStrokes_cons]
            simp only [hclaim, Bool.false_eq_true, if_false]
            have := Except.ok.inj h
            rw [← this, hout, hsucc]
            rfl
      · rw [if_neg (fun hx => Option.noConfusion hx.2)] at h
        by_cases hnew : newStrokeCond i (some c) last = true
        · have hclaim : claimNewStroke (i == 0) (some c) last = true :=
            newStrokeCond_eq_claim i (some c) last ▸ hnew
          rw [if_pos hnew] at h
          rcases hrec : markPaths (i + 1) (cur + 1) (some c) ps with e | rest <;>
            rw [hrec] at h
          · exact absurd h (by simp)
          · obtain ⟨cs, hmap, hout⟩ := ih (i + 1) (cur + 1) (some c) rest hrec
            refine ⟨some c :: cs, by simp [hc, hmap], ?_⟩
            rw [claimStrokes_cons]
            simp only [hclaim, if_true]
            have := Except.ok.inj h
            rw [← this, hout, hsucc]
            rfl
        · have hclaim : claimNewStroke (i == 0) (some c) last = false :=
            newStrokeCond_eq_claim i (some c) last ▸ Bool.eq_false_iff.mpr hnew
          rw [if_neg hnew] at h
          rcases hrec : markPaths (i + 1) cur (some c) ps with e | rest <;> rw [hrec] at h
          · exact absurd h (by simp)
          · obtain ⟨cs, hmap, hout⟩ := ih (i + 1) cur (some c) rest hrec
            refine ⟨some c :: cs, by simp [hc, hmap], ?_⟩
            rw [claimStrokes_cons]
            simp only [hclaim, Bool.false_eq_true, if_false]
            have := Except.ok.inj h
            rw [← this, hout, hsucc]
            rfl

/-- C2: when `process_svg`'s grouping loop completes, the stroke paths
are exactly the original paths marked black and classed `stroke-k`,
with the stroke numbers computed by the claim's rule (`claimStrokes`):
the first path starts stroke 1, a later path starts a new stroke
exactly when its `M x y` start point lies more than 50 away in x or in
y from the previously recorded start point (or no point was recorded
yet), and the numbering is consecutive starting at 1: it begins at 1
and each later number repeats or increments the previous one. -/
theorem C2_stroke_grouping (ps gray black : List PyPath)
    (hok : process_svg ps = .ok (gray, black)) :
    ∃ cs : List (Option (Dec × Dec)),
      ps.map (fun p => get_path_coords (p.get "d" "")) = cs.map Except.ok ∧
      black = List.zipWith markOne ps (claimStrokes true 0 none cs) ∧
      (claimStrokes true 0 none cs).length = ps.length ∧
      (∀ pb ∈ black, ∃ q k, pb = markOne q k ∧
        pb.get "class" "" = "stroke-" ++ pyStr k) ∧
      (ps ≠ [] → (claimStrokes true 0 none cs).head? = some 1) ∧
      List.Chain' strokeStep (0 :: claimStrokes true 0 none cs) := by
  rw [process_svg] at hok
  rcases hmk : markPaths 0 0 none ps with e | b <;> rw [hmk] at hok
  · exact absurd hok (by simp)
  · have hb : b = black := congrArg Prod.snd (Except.ok.inj hok)
    obtain ⟨cs, hmap, hout⟩ := markPaths_eq_claim ps 0 0 none b hmk
    have hlen : cs.length = ps.length := by
      have := congrArg List.length hmap
      simpa using this.symm
    have hblack : black = List.zipWith markOne ps (claimStrokes true 0 none cs) := by
      rw [← hb, hout]
      rfl
    refine ⟨cs, hmap, hblack, ?_, ?_, ?_, claimStrokes_chain cs true 0 none⟩
    · rw [claimStrokes_length, hlen]
    · intro pb hpb
      rw [hblack] at hpb
      obtain ⟨j, hj, hpe⟩ := List.mem_iff_getElem.mp hpb
      rw [List.getElem_zipWith] at hpe
      exact ⟨_, _, hpe.symm, by rw [← hpe, markOne_class]⟩
    · intro hne
      refine claimStrokes_head cs 0 none ?_
      intro hcs
      rw [hcs] at hlen
      exact hne (List.length_eq_zero.mp hlen.symm).symm.symm

/-- Witness for C2 at a concrete two-path SVG. -/
theorem C2_witness :
    ∃ cs : List (Option (Dec × Dec)),
      ([⟨[("d", "M 0 0")]⟩, ⟨[("d", "M 100 100")]⟩] : List PyPath).map
          (fun p => get_path_coords (p.get "d" "")) = cs.map Except.ok ∧
      ([⟨[("d", "M 0 0"), ("fill", "#000000"), ("style", "fill:#000000"),
          ("class", "stroke-1")]⟩,
        ⟨[("d", "M 100 100"), ("fill", "#000000"), ("style", "fill:#000000"),
          ("class", "stroke-2")]⟩] : List PyPath) =
        List.zipWith markOne [⟨[("d", "M 0 0")]⟩, ⟨[("d", "M 100 100")]⟩]
          (claimStrokes true 0 none cs) ∧
      (claimStrokes true 0 none cs).length =
        ([⟨[("d", "M 0 0")]⟩, ⟨[("d", "M 100 100")]⟩] : List PyPath).length ∧
      (∀ pb ∈ ([⟨[("d", "M 0 0"), ("fill", "#000000"), ("style", "fill:#000000"),
          ("class", "stroke-1")]⟩,
        ⟨[("d", "M 100 100"), ("fill", "#000000"), ("style", "fill:#000000"),
          ("class", "stroke-2")]⟩] : List PyPath), ∃ q k, pb = markOne q k ∧
        pb.get "class" "" = "stroke-" ++ pyStr k) ∧
      (([⟨[("d", "M 0 0")]⟩, ⟨[("d", "M 100 100")]⟩] : List PyPath) ≠ [] →
        (claimStrokes true 0 none cs).head? = some 1) ∧
      List.Chain' strokeStep (0 :: claimStrokes true 0 none cs) :=
  C2_stroke_grouping [⟨[("d", "M 0 0")]⟩, ⟨[("d", "M 100 100")]⟩]
    [⟨[("d", "M 0 0"), ("fill", "#CCCCCC"), ("style", "fill:#CCCCCC")]⟩,
     ⟨[("d", "M 100 100"), ("fill", "#CCCCCC"), ("style", "fill:#CCCCCC")]⟩]
    [⟨[("d", "M 0 0"), ("fill", "#000000"), ("style", "fill:#000000"),
       ("class", "stroke-1")]⟩,
     ⟨[("d", "M 100 100"), ("fill", "#000000"), ("style", "fill:#000000"),
       ("class", "stroke-2")]⟩]
    (by decide)

theorem gpc_ok_iff (d : String) :
    (∃ c, get_path_coords d = .ok c) ↔ dTokensOk d = true := by
  rcases hsp : pySplit (pyStrip d) with _ | ⟨t, rest⟩ <;>
    simp only [get_path_coords, dTokensOk, hsp]
  · simp
  · by_cases ht : t = "M"
    · simp only [if_pos ht]
      rcases rest with _ | ⟨a, rest2⟩
      · simp
      · rcases rest2 with _ | ⟨b, r⟩
        · rcases hfa : pyFloat? a with _ | x <;> simp [hfa]
        · rcases hfa : pyFloat? a with _ | x
          · simp [hfa]
          · rcases hfb : pyFloat? b with _ | y <;> simp [hfa, hfb]
    · simp only [if_neg ht]
      simp

theorem gpc_some_iff (d : String) :
    (∃ x y, get_path_coords d = .ok (some (x, y))) ↔ dStartsM d = true := by
  rcases hsp : pySplit (pyStrip d) with _ | ⟨t, rest⟩ <;>
    simp only [get_path_coords, dStartsM, hsp]
  · simp
  · by_cases ht : t = "M"
    · simp only [if_pos ht]
      rcases rest with _ | ⟨a, rest2⟩
      · simp [ht]
      · rcases rest2 with _ | ⟨b, r⟩
        · rcases hfa : pyFloat? a with _ | x <;> simp [ht, hfa]
        · rcases hfa : pyFloat? a with _ | x
          · simp [ht, hfa]
          · rcases hfb : pyFloat? b with _ | y <;> simp [ht, hfa, hfb]
    · simp only [if_neg ht]
      simp [ht]

theorem markPaths_ok_iff_tail (ps : List PyPath) :
    ∀ (i cur : ℕ) (last : Option (Dec × Dec)), i ≠ 0 →
      ((∃ out, markPaths i cur last ps = .ok out) ↔
        ∀ p ∈ ps, dTokensOk (p.get "d" "") = true) := by
  induction ps with
  | nil =>
    intro i cur last _
    constructor
    · intro _ p hp
      exact absurd hp (by simp)
    · intro _
      exact ⟨[], rfl⟩
  | cons p ps ih =>
    intro i cur last hi
    have hbeq : (i == 0) = false := by simpa using hi
    constructor
    · rintro ⟨out, h⟩ q hq
      rw [markPaths] at h
      rcases hc : get_path_coords (p.get "d" "") with e | coords <;> rw [hc] at h
      · exact absurd h (by simp)
      · have hok : dTokensOk (p.get "d" "") = true := (gpc_ok_iff _).mp ⟨coords, hc⟩
        rcases List.mem_cons.mp hq with rfl | hq'
        · exact hok
        · rcases coords with _ | c <;> simp only at h
          · have hnewf : newStrokeCond i none last = false := by
              simp [newStrokeCond, hbeq]
            rw [if_neg (by rw [hnewf]; simp), if_neg (by rw [hnewf]; simp)] at h
            rcases hrec : markPaths (i + 1) cur last ps with e | rest <;> rw [hrec] at h
            · exact absurd h (by simp)
            · exact ((ih (i + 1) cur last (by omega)).mp ⟨rest, hrec⟩) q hq'
          · rw [if_neg (fun hx => Option.noConfusion hx.2)] at h
            by_cases hnew : newStrokeCond i (some c) last = true
            · rw [if_pos hnew] at h
              rcases hrec : markPaths (i + 1) (cur + 1) (some c) ps with e | rest <;>
                rw [hrec] at h
              · exact absurd h (by simp)
              · exact ((ih (i + 1) (cur + 1) (some c) (by omega)).mp ⟨rest, hrec⟩) q hq'
            · rw [if_neg hnew] at h
              rcases hrec : markPaths (i + 1) cur (some c) ps with e | rest <;>
                rw [hrec] at h
              · exact absurd h (by simp)
              · exact ((ih (i + 1) cur (some c) (by omega)).mp ⟨rest, hrec⟩) q hq'
    · intro hall
      obtain ⟨coords, hc⟩ := (gpc_ok_iff _).mpr (hall p (List.mem_cons_self p ps))
      have htail : ∀ q ∈ ps, dTokensOk (q.get "d" "") = true :=
        fun q hq => hall q (List.mem_cons_of_mem p hq)
      rcases coords with _ | c
      · have hnewf : newStrokeCond i none last = false := by
          simp [newStrokeCond, hbeq]
        obtain ⟨rest, hrest⟩ := (ih (i + 1) cur last (by omega)).mpr htail
        refine ⟨markOne p cur :: rest, ?_⟩
        rw [markPaths, hc]
        simp only
        rw [if_neg (by rw [hnewf]; simp), if_neg (by rw [hnewf]; simp), hrest]
        rfl
      · by_cases hnew : newStrokeCond i (some c) last = true
        · obtain ⟨rest, hrest⟩ := (ih (i + 1) (cur + 1) (some c) (by omega)).mpr htail
          refine ⟨markOne p (cur + 1) :: rest, ?_⟩
          rw [markPaths, hc]
          simp only
          rw [if_neg (fun hx => Option.noConfusion hx.2), if_pos hnew, hrest]
          rfl
        · obtain ⟨rest, hrest⟩ := (ih (i + 1) cur (some c) (by omega)).mpr htail
          refine ⟨markOne p cur :: rest, ?_⟩
          rw [markPaths, hc]
          simp only
          rw [if_neg (fun hx => Option.noConfusion hx.2), if_neg hnew, hrest]
          rfl

/-- C8 (amended): `process_svg` completes without raising exactly when
every path's data splits into a non-empty token list whose `M`-leading
form carries two numeric tokens, and in addition the first path's data
does start with such an `M x y` command.  The original claim demanded
only the condition on the first path; a later path with malformed data
also raises (see the counterexample). -/
theorem C8_process_svg_raises (ps : List PyPath) :
    (∃ out, process_svg ps = .ok out) ↔
      ((∀ p ∈ ps, dTokensOk (p.get "d" "") = true) ∧
       (∀ p, ps.head? = some p → dStartsM (p.get "d" "") = true)) := by
  have hmp : (∃ b, markPaths 0 0 none ps = .ok b) ↔
      ((∀ p ∈ ps, dTokensOk (p.get "d" "") = true) ∧
       (∀ p, ps.head? = some p → dStartsM (p.get "d" "") = true)) := by
    cases ps with
    | nil =>
      constructor
      · intro _
        exact ⟨fun p hp => absurd hp (by simp), fun p hp => absurd hp (by simp)⟩
      · intro _
        exact ⟨[], rfl⟩
    | cons p ps =>
      constructor
      · rintro ⟨b, h⟩
        rw [markPaths] at h
        rcases hc : get_path_coords (p.get "d" "") with e | coords <;> rw [hc] at h
        · exact absurd h (by simp)
        · rcases coords with _ | c <;> simp only at h
          · rw [if_pos ⟨newStrokeCond_zero none none, trivial⟩] at h
            exact absurd h (by simp)
          · rw [if_neg (fun hx => Option.noConfusion hx.2),
              if_pos (newStrokeCond_zero (some c) none)] at h
            rcases hrec : markPaths 1 1 (some c) ps with e | rest <;> rw [hrec] at h
            · exact absurd h (by simp)
            · have htail := (markPaths_ok_iff_tail ps 1 1 (some c) one_ne_zero).mp
                ⟨rest, hrec⟩
              refine ⟨?_, ?_⟩
              · intro q hq
                rcases List.mem_cons.mp hq with rfl | hq'
                · exact (gpc_ok_iff _).mp ⟨some c, hc⟩
                · exact htail q hq'
              · intro q hq
                have hqp : p = q := by simpa using hq
                subst hqp
                exact (gpc_some_iff _).mp ⟨c.1, c.2, by simpa using hc⟩
      · rintro ⟨hall, hhead⟩
        obtain ⟨x, y, hc⟩ := (gpc_some_iff _).mpr (hhead p rfl)
        obtain ⟨rest, hrest⟩ := (markPaths_ok_iff_tail ps 1 1 (some (x, y))
          one_ne_zero).mpr (fun q hq => hall q (List.mem_cons_of_mem p hq))
        refine ⟨markOne p 1 :: rest, ?_⟩
        rw [markPaths, hc]
        simp only
        rw [if_neg (fun hx => Option.noConfusion hx.2),
          if_pos (newStrokeCond_zero (some (x, y)) none), hrest]
        rfl
  rw [← hmp]
  constructor
  · rintro ⟨out, h⟩
    rw [process_svg] at h
    rcases hmk : markPaths 0 0 none ps with e | b <;> rw [hmk] at h
    · exact absurd h (by simp)
    · exact ⟨b, rfl⟩
  · rintro ⟨b, hmk⟩
    refine ⟨(ps.map grayCopy, b), ?_⟩
    rw [process_svg, hmk]

/-- Counterexample to C8 as stated: the first path starts with a proper
`M x y` command, yet the call raises, because the second path's data is
empty and `get_path_coords` indexes an empty token list. -/
theorem C8_counterexample :
    dStartsM "M 0 0" = true ∧
    process_svg [⟨[("d", "M 0 0")]⟩, ⟨[]⟩] = .error .indexError := by decide

/-- Witness for the amended C8 at a concrete input: a two-path SVG
satisfying both conditions processes successfully. -/
theorem C8_witness :
    ∃ out, process_svg [⟨[("d", "M 0 0")]⟩, ⟨[("d", "M 100 100")]⟩] = .ok out :=
  (C8_process_svg_raises [⟨[("d", "M 0 0")]⟩, ⟨[("d", "M 100 100")]⟩]).mpr
    (by constructor
        · decide
        · decide)

/-! ## C1: the step documents -/
theorem ks_ge_one (ks : List ℕ) (hchain : List.Chain' strokeStep (0 :: ks))
    (hhead : ks.head? = some 1) : ∀ k ∈ ks, 1 ≤ k := by
  cases ks with
  | nil => simp
  | cons k0 t =>
    have hk0 : k0 = 1 := by simpa using hhead
    intro k hk
    rcases List.mem_cons.mp hk with rfl | hk'
    · omega
    · have := chain'_strokeStep_lb k0 t (List.chain'_cons.mp hchain).2 k hk'
      omega

/-- C1: for a processed character SVG — the stroke group found and the
original paths carrying no `class` attribute — and for every step `N`
from 1 up to the highest detected stroke number `K`, the step-`N`
document written by the generation loop is the processed document with
exactly the paths of strokes greater than `N` removed: every gray
background copy (fill `#CCCCCC`, one per original path) remains, the
surviving stroke paths are black (fill `#000000`), a stroke path
survives precisely when its stroke number is at most `N`, every stroke
`1..N` is still represented, and when the step-`N` PNG is not cached
this document is the very step SVG `generate_stroke_step_pngs`
writes. -/
theorem C1_stroke_step_documents (originals gray black : List PyPath)
    (hok : process_svg originals = .ok (gray, black))
    (hclass : ∀ p ∈ originals, p.get "class" "" = "")
    (N : ℕ) (hN1 : 1 ≤ N)
    (hNK : N ≤ (strokeNumbers (gray ++ black)).foldr max 0) :
    stepPaths (gray ++ black) N ((strokeNumbers (gray ++ black)).foldr max 0) =
      (gray ++ black).filter (keptAtStep N) ∧
    gray = originals.map grayCopy ∧
    (∀ p ∈ gray, p.get "fill" "" = "#CCCCCC" ∧ keptAtStep N p = true) ∧
    (∀ p ∈ black, p.get "fill" "" = "#000000") ∧
    (∀ p ∈ black, ∀ k, parseStrokeClass (p.get "class" "") = some k →
      (keptAtStep N p = true ↔ k ≤ N)) ∧
    (∀ k, 1 ≤ k → k ≤ N → ∃ p ∈ black, keptAtStep N p = true ∧
      p.get "class" "" = "stroke-" ++ pyStr k) ∧
    (∀ (fs : FS) (pref : String),
      existsNonzero fs (pngFile pref N) = false →
      FOp.writeSvg (svgFile pref N)
          (stepPaths (gray ++ black) N
            ((strokeNumbers (gray ++ black)).foldr max 0)) ∈
        generate_stroke_step_pngs fs pref gray black) := by
  obtain ⟨hgray, ks, hblack, hlen, hchain, hhead⟩ :=
    process_svg_spec originals gray black hok
  have hsn : strokeNumbers (gray ++ black) = ks := by
    rw [hgray, hblack]
    exact strokeNumbers_processed originals ks hclass hlen
  have hkK : ∀ k ∈ ks, k ≤ ks.foldr max 0 := le_foldr_max ks
  have hne : originals ≠ [] := by
    intro h0
    rw [h0] at hlen
    have hks : ks = [] := List.length_eq_zero.mp (by simpa using hlen)
    rw [hsn, hks] at hNK
    simp at hNK
    omega
  have hk1 : ∀ k ∈ ks, 1 ≤ k := ks_ge_one ks hchain (hhead hne)
  have hKks : ks.foldr max 0 ∈ ks := by
    refine foldr_max_mem ks ?_
    rw [hsn] at hNK
    omega
  refine ⟨?_, hgray, ?_, ?_, ?_, ?_, ?_⟩
  · rw [hsn, hgray, hblack]
    exact stepPaths_processed originals ks N (ks.foldr max 0) hclass hkK
  · intro p hp
    rw [hgray] at hp
    rcases List.mem_map.mp hp with ⟨q, hq, rfl⟩
    have hcl : (grayCopy q).get "class" "" = "" := by
      rw [grayCopy_class, hclass q hq]
    refine ⟨grayCopy_fill q "", ?_⟩
    simp [keptAtStep, hcl, parseStrokeClass_empty]
  · intro p hp
    rw [hblack] at hp
    obtain ⟨j, hj, hpe⟩ := List.mem_iff_getElem.mp hp
    rw [List.getElem_zipWith] at hpe
    rw [← hpe]
    exact markOne_fill _ _ ""
  · intro p _ k hparse
    simp [keptAtStep, hparse]
  · intro k hk1' hkN
    have hkK' : k ≤ ks.foldr max 0 := by
      rw [hsn] at hNK
      omega
    have hkmem : k ∈ ks :=
      chain'_strokeStep_between 0 ks hchain (ks.foldr max 0) hKks k
        (by omega) hkK'
    obtain ⟨j, hj, hje⟩ := List.mem_iff_getElem.mp hkmem
    have hjz : j < (List.zipWith markOne originals ks).length := by
      rw [List.length_zipWith, hlen]
      omega
    refine ⟨(List.zipWith markOne originals ks)[j], ?_, ?_, ?_⟩
    · rw [hblack]
      exact List.getElem_mem hjz
    · rw [List.getElem_zipWith]
      simp [keptAtStep, markOne_class, parseStrokeClass_stroke, hje, hkN]
    · rw [List.getElem_zipWith, markOne_class, hje]
  · intro fs pref hskip
    have hksne : strokeNumbers (gray ++ black) ≠ [] := by
      rw [hsn]
      intro h0
      rw [hsn, h0] at hNK
      simp at hNK
      omega
    show FOp.writeSvg (svgFile pref N)
        (stepPaths (gray ++ black) N
          ((strokeNumbers (gray ++ black)).foldr max 0)) ∈
      (if strokeNumbers (gray ++ black) = [] then [] else
        genOps fs pref (gray ++ black)
          ((strokeNumbers (gray ++ black)).foldr max 0))
    rw [if_neg hksne]
    exact writeSvg_mem_genOps fs pref (gray ++ black)
      ((strokeNumbers (gray ++ black)).foldr max 0) N hN1 hNK hskip

/-- Witness for C1 at a concrete two-stroke SVG (step 1): applying the
theorem yields, among its conclusions, the gray-group equation. -/
theorem C1_witness :
    ([⟨[("d", "M 0 0"), ("fill", "#CCCCCC"), ("style", "fill:#CCCCCC")]⟩,
      ⟨[("d", "M 100 100"), ("fill", "#CCCCCC"), ("style", "fill:#CCCCCC")]⟩] :
      List PyPath) =
      ([⟨[("d", "M 0 0")]⟩, ⟨[("d", "M 100 100")]⟩] : List PyPath).map grayCopy :=
  (C1_stroke_step_documents [⟨[("d", "M 0 0")]⟩, ⟨[("d", "M 100 100")]⟩]
    [⟨[("d", "M 0 0"), ("fill", "#CCCCCC"), ("style", "fill:#CCCCCC")]⟩,
     ⟨[("d", "M 100 100"), ("fill", "#CCCCCC"), ("style", "fill:#CCCCCC")]⟩]
    [⟨[("d", "M 0 0"), ("fill", "#000000"), ("style", "fill:#000000"),
       ("class", "stroke-1")]⟩,
     ⟨[("d", "M 100 100"), ("fill", "#000000"), ("style", "fill:#000000"),
       ("class", "stroke-2")]⟩]
    (by decide) (by decide) 1 (by decide) (by decide)).2.1

/-! ## C6: the cache skip and the write footprint -/
theorem stepFileBase_inj (pref : String) {a b : ℕ}
    (h : stepFileBase pref a = stepFileBase pref b) : a = b := by
  have hd := congrArg String.data h
  rw [stepFileBase, stepFileBase, String.data_append, String.data_append] at hd
  exact pad2_injective (String.ext (List.append_cancel_left hd))

theorem svgFile_inj (pref : String) {a b : ℕ}
    (h : svgFile pref a = svgFile pref b) : a = b := by
  have hd := congrArg String.data h
  rw [svgFile, svgFile, String.data_append, String.data_append] at hd
  obtain ⟨hbase, _⟩ := List.append_inj' hd rfl
  exact stepFileBase_inj pref (String.ext hbase)

theorem pngFile_inj (pref : String) {a b : ℕ}
    (h : pngFile pref a = pngFile pref b) : a = b := by
  have hd := congrArg String.data h
  rw [pngFile, pngFile, String.data_append, String.data_append] at hd
  obtain ⟨hbase, _⟩ := List.append_inj' hd rfl
  exact stepFileBase_inj pref (String.ext hbase)

theorem svgFile_ne_pngFile (pref : String) (a b : ℕ) :
    svgFile pref a ≠ pngFile pref b := by
  intro h
  have hd := congrArg String.data h
  rw [svgFile, pngFile, String.data_append, String.data_append] at hd
  obtain ⟨_, hext⟩ := List.append_inj' hd rfl
  exact absurd hext (by decide)

theorem startsWith_outputDir (pref : String) (j : ℕ) (ext : String) :
    pyStartsWith (stepFileBase pref j ++ ext) "output/pngs/" = true := by
  rw [pyStartsWith, String.data_append, stepFileBase, String.data_append,
    String.data_append, String.data_append]
  simp only [List.append_assoc]
  exact isPrefixOf_append _ _

theorem mem_genOps (fs : FS) (pref : String) (paths : List PyPath) (K : ℕ)
    (op : FOp) (hop : op ∈ genOps fs pref paths K) :
    ∃ j, 1 ≤ j ∧ j ≤ K ∧ existsNonzero fs (pngFile pref j) = false ∧
      (op = .writeSvg (svgFile pref j) (stepPaths paths j K) ∨
       op = .exportPng (svgFile pref j) (pngFile pref j)) := by
  rw [genOps, List.mem_flatMap] at hop
  obtain ⟨j, hjr, hmem⟩ := hop
  rcases List.mem_range'.mp hjr with ⟨i, hi, rfl⟩
  by_cases hskip : existsNonzero fs (pngFile pref (1 + 1 * i)) = true
  · rw [if_pos hskip] at hmem
    exact absurd hmem (by simp)
  · rw [if_neg hskip] at hmem
    refine ⟨1 + 1 * i, by omega, by omega, Bool.eq_false_iff.mpr hskip, ?_⟩
    rcases List.mem_cons.mp hmem with rfl | hmem'
    · exact Or.inl rfl
    · rcases List.mem_cons.mp hmem' with rfl | hmem''
      · exact Or.inr rfl
      · exact absurd hmem'' (by simp)

/-- C6: `generate_stroke_step_pngs` never rewrites a cached image: when
the step-`i` PNG already exists with positive size, no operation of the
run writes the step-`i` SVG or PNG (the step is skipped entirely), and
every operation the run does perform is the SVG write or the PNG export
of some non-cached step `j` in range, both named under the
`output/pngs/` directory — no other on-disk state is created. -/
theorem C6_cache_skip (fs : FS) (pref : String) (gray black : List PyPath)
    (i : ℕ) (hcached : existsNonzero fs (pngFile pref i) = true) :
    (∀ op ∈ generate_stroke_step_pngs fs pref gray black,
      (∀ content, op ≠ .writeSvg (svgFile pref i) content) ∧
      (∀ content, op ≠ .writeSvg (pngFile pref i) content) ∧
      (∀ svgIn, op ≠ .exportPng svgIn (pngFile pref i)) ∧
      (∀ pngOut, op ≠ .exportPng (svgFile pref i) pngOut)) ∧
    (∀ op ∈ generate_stroke_step_pngs fs pref gray black,
      ∃ j, 1 ≤ j ∧ j ≤ (strokeNumbers (gray ++ black)).foldr max 0 ∧
        existsNonzero fs (pngFile pref j) = false ∧
        (op = .writeSvg (svgFile pref j)
            (stepPaths (gray ++ black) j
              ((strokeNumbers (gray ++ black)).foldr max 0)) ∨
         op = .exportPng (svgFile pref j) (pngFile pref j)) ∧
        pyStartsWith (svgFile pref j) "output/pngs/" = true ∧
        pyStartsWith (pngFile pref j) "output/pngs/" = true) := by
  have hops : ∀ op ∈ generate_stroke_step_pngs fs pref gray black,
      ∃ j, 1 ≤ j ∧ j ≤ (strokeNumbers (gray ++ black)).foldr max 0 ∧
        existsNonzero fs (pngFile pref j) = false ∧
        (op = .writeSvg (svgFile pref j)
            (stepPaths (gray ++ black) j
              ((strokeNumbers (gray ++ black)).foldr max 0)) ∨
         op = .exportPng (svgFile pref j) (pngFile pref j)) := by
    intro op hop
    by_cases hempty : strokeNumbers (gray ++ black) = []
    · rw [generate_stroke_step_pngs] at hop
      simp [hempty] at hop
    · have hop' : op ∈ genOps fs pref (gray ++ black)
          ((strokeNumbers (gray ++ black)).foldr max 0) := by
        have : generate_stroke_step_pngs fs pref gray black =
            genOps fs pref (gray ++ black)
              ((strokeNumbers (gray ++ black)).foldr max 0) := by
          show (if strokeNumbers (gray ++ black) = [] then [] else
            genOps fs pref (gray ++ black)
              ((strokeNumbers (gray ++ black)).foldr max 0)) = _
          rw [if_neg hempty]
        rw [← this]
        exact hop
      exact mem_genOps fs pref (gray ++ black) _ op hop'
  constructor
  · intro op hop
    obtain ⟨j, hj1, hjK, hjskip, hform⟩ := hops op hop
    have hji : j ≠ i := by
      intro h
      rw [h, hcached] at hjskip
      exact Bool.true_eq_false ▸ hjskip
    rcases hform with rfl | rfl
    · refine ⟨?_, ?_, ?_, ?_⟩
      · intro content heq
        have := FOp.writeSvg.inj heq
        exact hji (svgFile_inj pref this.1)
      · intro content heq
        have := FOp.writeSvg.inj heq
        exact svgFile_ne_pngFile pref j i this.1
      · intro svgIn heq
        exact FOp.noConfusion heq
      · intro pngOut heq
        exact FOp.noConfusion heq
    · refine ⟨?_, ?_, ?_, ?_⟩
      · intro content heq
        exact FOp.noConfusion heq
      · intro content heq
        exact FOp.noConfusion heq
      · intro svgIn heq
        have := FOp.exportPng.inj heq
        exact hji (pngFile_inj pref this.2)
      · intro pngOut heq
        have := FOp.exportPng.inj heq
        exact hji (svgFile_inj pref this.1)
  · intro op hop
    obtain ⟨j, hj1, hjK, hjskip, hform⟩ := hops op hop
    exact ⟨j, hj1, hjK, hjskip, hform,
      startsWith_outputDir pref j ".svg", startsWith_outputDir pref j ".png"⟩

/-- Witness for C6 at a concrete input: with the step-1 PNG cached and
a two-stroke document, the step-2 SVG write that the run does perform
does not name the step-1 SVG. -/
theorem C6_witness :
    FOp.writeSvg (svgFile "w" 2)
        (stepPaths [(⟨[("class", "stroke-1")]⟩ : PyPath),
          ⟨[("class", "stroke-2")]⟩] 2 2) ≠
      FOp.writeSvg (svgFile "w" 1) [] :=
  ((C6_cache_skip (fun p => if p = pngFile "w" 1 then some 5 else none) "w" []
      [⟨[("class", "stroke-1")]⟩, ⟨[("class", "stroke-2")]⟩] 1 (by decide)).1
    (FOp.writeSvg (svgFile "w" 2)
      (stepPaths [(⟨[("class", "stroke-1")]⟩ : PyPath),
        ⟨[("class", "stroke-2")]⟩] 2 2))
    (by decide)).1 []

theorem updateEntry_good (lvl : Level) (row : XRow) (e : TocflWord)
    (he : goodRecord e) : goodRecord (updateEntry lvl row e) := by
  obtain ⟨hne, hnd, hmem, hmin⟩ := he
  rw [updateEntry]
  by_cases hin : lvl ∈ e.levels
  · rw [if_pos hin]
    by_cases hlt : lvl.rank < e.lowest_level.rank
    · rw [if_pos hlt]
      refine ⟨hne, hnd, hin, fun l hl => ?_⟩
      have := hmin l hl
      show lvl.rank ≤ l.rank
      omega
    · rw [if_neg hlt]
      exact ⟨hne, hnd, hmem, hmin⟩
  · rw [if_neg hin]
    have hnd' : (e.levels ++ [lvl]).Nodup := by
      simp [List.nodup_append, hnd, hin]
    by_cases hlt : lvl.rank < e.lowest_level.rank
    · rw [if_pos hlt]
      refine ⟨by simp, hnd', by simp, fun l hl => ?_⟩
      show lvl.rank ≤ l.rank
      rcases List.mem_append.mp hl with hl' | hl'
      · have := hmin l hl'
        omega
      · have hlv : l = lvl := by simpa using hl'
        subst hlv
        omega
    · rw [if_neg hlt]
      refine ⟨by simp, hnd', List.mem_append_left _ hmem, fun l hl => ?_⟩
      show e.lowest_level.rank ≤ l.rank
      rcases List.mem_append.mp hl with hl' | hl'
      · exact hmin l hl'
      · have hlv : l = lvl := by simpa using hl'
        subst hlv
        omega

theorem processRow_good (lvl : Level) (row : XRow)
    (dict : List (String × TocflWord)) (h : ∀ kv ∈ dict, goodRecord kv.2) :
    ∀ kv ∈ processRow lvl dict row, goodRecord kv.2 := by
  rw [processRow]
  rcases hv : row.vocab with _ | v
  · exact h
  · simp only
    by_cases hch : hasChineseChar (pyStrip v) = true
    · rw [if_pos hch]
      rcases hf : dict.find? (fun kv => kv.1 = pyStrip v) with _ | kv0 <;>
        simp only [hf]
      · intro kv hkv
        rcases List.mem_append.mp hkv with hkv' | hkv'
        · exact h kv hkv'
        · have : kv = (pyStrip v,
              { chineseword := pyStrip v
                pinyin := pyStrip (row.pinyinCell.getD "")
                grammar := pyStrip (row.grammarCell.getD "")
                levels := [lvl]
                lowest_level := lvl }) := by simpa using hkv'
          rw [this]
          refine ⟨by simp, by simp, by simp, fun l hl => ?_⟩
          show lvl.rank ≤ l.rank
          have hlv : l = lvl := by simpa using hl
          subst hlv
          omega
      · intro kv hkv
        rcases List.mem_map.mp hkv with ⟨kv', hkv', rfl⟩
        by_cases heq : kv'.1 = pyStrip v
        · rw [if_pos heq]
          exact updateEntry_good lvl row kv'.2 (h kv' hkv')
        · rw [if_neg heq]
          exact h kv' hkv'
    · rw [if_neg hch]
      exact h

theorem foldl_processRow_good (lvl : Level) (rows : List XRow) :
    ∀ (dict : List (String × TocflWord)), (∀ kv ∈ dict, goodRecord kv.2) →
      ∀ kv ∈ rows.foldl (processRow lvl) dict, goodRecord kv.2 := by
  induction rows with
  | nil => intro dict h; exact h
  | cons row rows ih =>
    intro dict h
    rw [List.foldl_cons]
    exact ih (processRow lvl dict row) (processRow_good lvl row dict h)

theorem processSheets_good (sheets : List Sheet) :
    ∀ (dict d : List (String × TocflWord)), (∀ kv ∈ dict, goodRecord kv.2) →
      processSheets dict sheets = .ok d → ∀ kv ∈ d, goodRecord kv.2 := by
  induction sheets with
  | nil =>
    intro dict d h hok
    have := Except.ok.inj hok
    rw [← this]
    exact h
  | cons sh sheets ih =>
    intro dict d h hok
    rw [processSheets] at hok
    rcases hps : processSheet dict sh with e | d1 <;> rw [hps] at hok
    · exact absurd hok (by simp)
    · rw [processSheet] at hps
      rcases hlm : level_mapping sh.name with _ | lvl <;> rw [hlm] at hps
      · exact absurd hps (by simp)
      · have hd1 : (sh.rows.drop 2).foldl (processRow lvl) dict = d1 :=
          Except.ok.inj hps
        refine ih d1 d ?_ hok
        rw [← hd1]
        exact foldl_processRow_good lvl (sh.rows.drop 2) dict h

/-- C4: every record produced by `extract_chinese_words` — for any
sheets processed in any order — carries the five documented fields (the
`TocflWord` shape), its `levels` list is non-empty and duplicate-free,
and `lowest_level` is a member of `levels` of minimal rank under
foundation < beginner < intermediate < advanced. -/
theorem C4_extract_invariant (sheets : List Sheet) (r : TocflWord)
    (hr : r ∈ extract_chinese_words sheets) :
    r.levels ≠ [] ∧ r.levels.Nodup ∧ r.lowest_level ∈ r.levels ∧
      ∀ l ∈ r.levels, r.lowest_level.rank ≤ l.rank := by
  rw [extract_chinese_words] at hr
  rcases hps : processSheets [] sheets.reverse with e | dict <;> rw [hps] at hr
  · exact absurd hr (by simp)
  · have hgood := processSheets_good sheets.reverse [] dict (by simp) hps
    rcases List.mem_map.mp hr with ⟨kv, hkv, rfl⟩
    exact hgood kv hkv

/-- Witness for C4 at a concrete one-sheet input (two header rows, one
word row). -/
theorem C4_witness :
    c4Sample.levels ≠ [] ∧ c4Sample.levels.Nodup ∧
      c4Sample.lowest_level ∈ c4Sample.levels ∧
      ∀ l ∈ c4Sample.levels, c4Sample.lowest_level.rank ≤ l.rank :=
  C4_extract_invariant
    [⟨"基礎", [⟨none, none, none⟩, ⟨none, none, none⟩,
      ⟨some "你", some "ni", some "N"⟩]⟩]
    c4Sample (by decide)

/-- Witness for the amended C9 at a concrete input: with the non-empty
query `N`, no kept record lacks a grammar field. -/
theorem C9_witness :
    ∀ w ∈ filter_by_grammar
        [{ chineseword := "是", pinyin := "shi", grammar := some "V",
           levels := [], translations := [], frequency_score := none }] "N",
      w.grammar ≠ none :=
  (C9_filter_by_grammar
    [{ chineseword := "是", pinyin := "shi", grammar := some "V",
       levels := [], translations := [], frequency_score := none }] "N").2
    (by decide)
